import Mathlib

/-!
Verification development for the Browser Clip rolling capture-and-clip engine.

JavaScript strings are modelled as `List Char` (`Str`), JavaScript numbers as
`Int` (or `ℚ` where fractional arithmetic occurs), and nullable values as
`Option`.  Platform built-ins used by the source (`JSON.parse`/`stringify`,
`new URL`/`URLSearchParams`, `RegExp.replace`) are given executable models in
this file; each model's doc comment states what it captures.
-/

set_option maxHeartbeats 1000000

/-- JavaScript strings, modelled as lists of characters. -/
abbrev Str := List Char

/-- Lower-case a modelled string (model of `String.prototype.toLowerCase`
restricted to the ASCII range, which is all the sanitizer's patterns use). -/
def lowerStr (s : Str) : Str := s.map Char.toLower

/-- Model of `String.prototype.includes`: substring containment. -/
def strIncludes (s pat : Str) : Bool :=
  pat.isPrefixOf s ||
    match s with
    | [] => false
    | _ :: t => strIncludes t pat

/-- `DEFAULT_SENSITIVE_HEADERS` from `lib/sanitizer.js`. -/
def DEFAULT_SENSITIVE_HEADERS : List Str :=
  ["authorization".data, "cookie".data, "set-cookie".data,
   "x-api-key".data, "x-auth-token".data, "x-access-token".data]

/-- `SENSITIVE_PATTERNS` from `lib/sanitizer.js`. -/
def SENSITIVE_PATTERNS : List Str :=
  ["token".data, "key".data, "secret".data, "password".data,
   "credential".data, "auth".data, "session".data, "jwt".data, "bearer".data]

/-- `REDACTED` placeholder from `lib/sanitizer.js`. -/
def REDACTED : Str := "[REDACTED]".data

/-- `isSensitiveHeader` from `lib/sanitizer.js`. -/
def isSensitiveHeader (name : Str) (customPatterns : List Str) : Bool :=
  let lowerName := lowerStr name
  if DEFAULT_SENSITIVE_HEADERS.contains lowerName then true
  else (SENSITIVE_PATTERNS ++ customPatterns).any fun pattern =>
    strIncludes lowerName (lowerStr pattern)

/-- `isSensitiveParam` from `lib/sanitizer.js`. -/
def isSensitiveParam (name : Str) : Bool :=
  let lowerName := lowerStr name
  SENSITIVE_PATTERNS.any fun pattern => strIncludes lowerName (lowerStr pattern)

/-- A `{name, value}` record as used for HAR headers and query parameters. -/
structure NameValue where
  name : Str
  value : Str
deriving DecidableEq, Repr

/-- `sanitizeHeaders` from `lib/sanitizer.js` (the `null`/non-array guard of the
source corresponds to absent header lists, handled at the call sites). -/
def sanitizeHeaders (headers : List NameValue) (customPatterns : List Str) : List NameValue :=
  headers.map fun header =>
    if isSensitiveHeader header.name customPatterns then
      { name := header.name, value := REDACTED }
    else header

/-- `sanitizeQueryString` from `lib/sanitizer.js`. -/
def sanitizeQueryString (queryString : List NameValue) (sanitizeParams : Bool) : List NameValue :=
  if !sanitizeParams then queryString
  else queryString.map fun param =>
    if isSensitiveParam param.name then
      { name := param.name, value := REDACTED }
    else param

theorem sanitizeHeaders_idem (headers : List NameValue) (custom : List Str) :
    sanitizeHeaders (sanitizeHeaders headers custom) custom = sanitizeHeaders headers custom := by
  unfold sanitizeHeaders
  rw [List.map_map]
  apply List.map_congr_left
  intro h _
  by_cases hs : isSensitiveHeader h.name custom <;> simp [Function.comp, hs]

theorem sanitizeQueryString_idem (qs : List NameValue) (b : Bool) :
    sanitizeQueryString (sanitizeQueryString qs b) b = sanitizeQueryString qs b := by
  unfold sanitizeQueryString
  cases b with
  | false => simp
  | true =>
    simp only [Bool.not_true, Bool.false_eq_true, if_false, List.map_map]
    apply List.map_congr_left
    intro p _
    by_cases hs : isSensitiveParam p.name <;> simp [Function.comp, hs]

/-! ### Model of JSON values and of the platform `JSON.parse` / `JSON.stringify`

Numbers are kept as their literal text (`num lit`), so no floating-point
arithmetic enters the model; `JSON.stringify` is modelled without added
whitespace, exactly as the default stringifier used by the source. -/

/-- JSON values as produced by `JSON.parse`. -/
inductive Json where
  | null : Json
  | bool (b : Bool) : Json
  | num (lit : Str) : Json
  | str (s : Str) : Json
  | arr (elems : List Json) : Json
  | obj (fields : List (Str × Json)) : Json

/-- JSON insignificant whitespace. -/
def isJsonWs (c : Char) : Bool := c = ' ' || c = '\t' || c = '\n' || c = '\r'

/-- Characters that can occur in a JSON numeric literal. -/
def isNumChar (c : Char) : Bool :=
  c.isDigit || c = '-' || c = '+' || c = '.' || c = 'e' || c = 'E'

/-- Value of a hexadecimal digit. -/
def hexDigitVal (c : Char) : Option Nat :=
  if c.isDigit then some (c.toNat - 48)
  else if 'a' ≤ c && c ≤ 'f' then some (c.toNat - 87)
  else if 'A' ≤ c && c ≤ 'F' then some (c.toNat - 55)
  else none

/-- Decode a two-character JSON string escape (`\"`, `\\`, `\/`, `\b`, `\f`,
`\n`, `\r`, `\t`); `\uXXXX` is handled separately. -/
def unescapeChar (e : Char) : Option Char :=
  if e = '"' then some '"'
  else if e = '\\' then some '\\'
  else if e = '/' then some '/'
  else if e = 'b' then some '\x08'
  else if e = 'f' then some '\x0c'
  else if e = 'n' then some '\n'
  else if e = 'r' then some '\r'
  else if e = 't' then some '\t'
  else none

/-- Parse the body of a JSON string after the opening quote.  Returns the
decoded text and the input following the closing quote; fails on invalid
escapes and raw control characters, as `JSON.parse` does. -/
def parseStrBody : Str → Option (Str × Str)
  | [] => none
  | c :: rest =>
    if c = '"' then some ([], rest)
    else if c = '\\' then
      match rest with
      | [] => none
      | e :: r =>
        if e = 'u' then
          match r with
          | a :: b :: c2 :: d :: r2 =>
            match hexDigitVal a, hexDigitVal b, hexDigitVal c2, hexDigitVal d with
            | some va, some vb, some vc, some vd =>
              (parseStrBody r2).map fun p =>
                (Char.ofNat (va * 4096 + vb * 256 + vc * 16 + vd) :: p.1, p.2)
            | _, _, _, _ => none
          | _ => none
        else
          match unescapeChar e with
          | some ch => (parseStrBody r).map fun p => (ch :: p.1, p.2)
          | none => none
    else if c.toNat < 32 then none
    else (parseStrBody rest).map fun p => (c :: p.1, p.2)

/-- Encode one character for a JSON string literal, as `JSON.stringify` does. -/
def escapeChar (c : Char) : Str :=
  if c = '"' then ['\\', '"']
  else if c = '\\' then ['\\', '\\']
  else if c = '\x08' then ['\\', 'b']
  else if c = '\x0c' then ['\\', 'f']
  else if c = '\n' then ['\\', 'n']
  else if c = '\r' then ['\\', 'r']
  else if c = '\t' then ['\\', 't']
  else if c.toNat < 32 then
    ['\\', 'u', '0', '0', Nat.digitChar (c.toNat / 16), Nat.digitChar (c.toNat % 16)]
  else [c]

/-- Encode a whole string body for a JSON string literal. -/
def escapeStr : Str → Str
  | [] => []
  | c :: t => escapeChar c ++ escapeStr t

mutual

/-- Model of `JSON.stringify` (default form: no added whitespace). -/
def strV : Json → Str
  | .null => "null".data
  | .bool true => "true".data
  | .bool false => "false".data
  | .num lit => lit
  | .str s => '"' :: (escapeStr s ++ ['"'])
  | .arr es => '[' :: (strElems es ++ [']'])
  | .obj fs => '{' :: (strFields fs ++ ['}'])

/-- Comma-separated serialization of array elements. -/
def strElems : List Json → Str
  | [] => []
  | e :: es => strV e ++ tailElems es

/-- Serialization of the tail of an array (a leading comma per element). -/
def tailElems : List Json → Str
  | [] => []
  | e :: es => ',' :: (strV e ++ tailElems es)

/-- Comma-separated serialization of object fields. -/
def strFields : List (Str × Json) → Str
  | [] => []
  | (k, v) :: fs => strField k v ++ tailFields fs

/-- Serialization of the tail of an object (a leading comma per field). -/
def tailFields : List (Str × Json) → Str
  | [] => []
  | (k, v) :: fs => ',' :: (strField k v ++ tailFields fs)

/-- Serialization of one `"key":value` object field. -/
def strField (k : Str) (v : Json) : Str :=
  '"' :: (escapeStr k ++ '"' :: ':' :: strV v)

end

mutual

/-- Does a JSON value carry only well-formed numeric literals?  This is the
invariant enjoyed by every value `JSON.parse` can produce. -/
def wfJ : Json → Bool
  | .num lit =>
    (match lit with
     | [] => false
     | c :: _ => c.isDigit || c = '-') && lit.all isNumChar
  | .arr es => wfL es
  | .obj fs => wfF fs
  | _ => true

/-- `wfJ` on each element of a list. -/
def wfL : List Json → Bool
  | [] => true
  | e :: es => wfJ e && wfL es

/-- `wfJ` on each field value of an object field list. -/
def wfF : List (Str × Json) → Bool
  | [] => true
  | (_, v) :: fs => wfJ v && wfF fs

end

/-- Try to consume a literal word (used for `null`, `true`, `false`). -/
def litTok (w s : Str) : Option Str :=
  if w.isPrefixOf s then some (s.drop w.length) else none

/-- Parse a JSON numeric literal by maximal munch over `isNumChar`. -/
def parseNum : Str → Option (Json × Str)
  | [] => none
  | c :: rest =>
    if c.isDigit || c = '-' then
      let lit := (c :: rest).takeWhile isNumChar
      some (.num lit, (c :: rest).drop lit.length)
    else none

mutual

/-- Model of the value grammar of `JSON.parse`, with explicit fuel (the
top-level wrapper supplies enough fuel for any input). -/
def parseV : Nat → Str → Option (Json × Str)
  | 0, _ => none
  | fuel + 1, s =>
    match s.dropWhile isJsonWs with
    | [] => none
    | c :: rest =>
      if c = '"' then (parseStrBody rest).map fun p => (.str p.1, p.2)
      else if c = '[' then
        match rest.dropWhile isJsonWs with
        | [] => none
        | c2 :: r2 =>
          if c2 = ']' then some (.arr [], r2)
          else
            (parseV fuel (c2 :: r2)).bind fun p =>
              (parseArrRest fuel p.2).map fun q => (.arr (p.1 :: q.1), q.2)
      else if c = '{' then
        match rest.dropWhile isJsonWs with
        | [] => none
        | c2 :: r2 =>
          if c2 = '}' then some (.obj [], r2)
          else if c2 = '"' then
            (parseStrBody r2).bind fun kp =>
              match kp.2.dropWhile isJsonWs with
              | [] => none
              | c3 :: r3 =>
                if c3 = ':' then
                  (parseV fuel r3).bind fun vp =>
                    (parseObjRest fuel vp.2).map fun q => (.obj ((kp.1, vp.1) :: q.1), q.2)
                else none
          else none
      else
        match litTok "null".data (c :: rest) with
        | some r => some (.null, r)
        | none =>
          match litTok "true".data (c :: rest) with
          | some r => some (.bool true, r)
          | none =>
            match litTok "false".data (c :: rest) with
            | some r => some (.bool false, r)
            | none => parseNum (c :: rest)

/-- Remaining elements of a JSON array after the first one: a `]` or a `,`
followed by a value, repeatedly. -/
def parseArrRest : Nat → Str → Option (List Json × Str)
  | 0, _ => none
  | fuel + 1, s =>
    match s.dropWhile isJsonWs with
    | [] => none
    | c :: r =>
      if c = ']' then some ([], r)
      else if c = ',' then
        (parseV fuel r).bind fun p =>
          (parseArrRest fuel p.2).map fun q => (p.1 :: q.1, q.2)
      else none

/-- Remaining fields of a JSON object after the first one. -/
def parseObjRest : Nat → Str → Option (List (Str × Json) × Str)
  | 0, _ => none
  | fuel + 1, s =>
    match s.dropWhile isJsonWs with
    | [] => none
    | c :: r =>
      if c = '}' then some ([], r)
      else if c = ',' then
        match r.dropWhile isJsonWs with
        | [] => none
        | c2 :: r2 =>
          if c2 = '"' then
            (parseStrBody r2).bind fun kp =>
              match kp.2.dropWhile isJsonWs with
              | [] => none
              | c3 :: r3 =>
                if c3 = ':' then
                  (parseV fuel r3).bind fun vp =>
                    (parseObjRest fuel vp.2).map fun q => ((kp.1, vp.1) :: q.1, q.2)
                else none
          else none
      else none

end

/-- Model of `JSON.parse`: parse one value, allow surrounding whitespace,
reject trailing garbage; `none` models a thrown `SyntaxError`. -/
def parseJson (s : Str) : Option Json :=
  match parseV (s.length + 1) s with
  | some (v, r) => if r.dropWhile isJsonWs = [] then some v else none
  | none => none

mutual

/-- `sanitizeObject` from `lib/sanitizer.js`: recursively replace the value of
any object key matching a sensitive pattern with `[REDACTED]`. -/
def sanitizeObject : Json → Json
  | .arr es => .arr (sanitizeArr es)
  | .obj fs => .obj (sanitizeFields fs)
  | j => j

/-- `sanitizeObject` mapped over array elements. -/
def sanitizeArr : List Json → List Json
  | [] => []
  | e :: es => sanitizeObject e :: sanitizeArr es

/-- `sanitizeObject` over object fields; a sensitive key's value becomes the
string `[REDACTED]`, any other value is recursed into. -/
def sanitizeFields : List (Str × Json) → List (Str × Json)
  | [] => []
  | (k, v) :: fs =>
    (k, if isSensitiveParam k then .str REDACTED else sanitizeObject v) :: sanitizeFields fs

end

/-- Induction principle for `Json` exposing membership hypotheses for the
nested lists. -/
def jsonInd (P : Json → Prop)
    (hnull : P .null) (hbool : ∀ b, P (.bool b))
    (hnum : ∀ l, P (.num l)) (hstr : ∀ s, P (.str s))
    (harr : ∀ es, (∀ e ∈ es, P e) → P (.arr es))
    (hobj : ∀ fs, (∀ kv ∈ fs, P kv.2) → P (.obj fs)) :
    ∀ j, P j
  | .null => hnull
  | .bool b => hbool b
  | .num l => hnum l
  | .str s => hstr s
  | .arr es => harr es fun e he =>
      have : sizeOf e < 1 + sizeOf es := by
        have := List.sizeOf_lt_of_mem he
        omega
      jsonInd P hnull hbool hnum hstr harr hobj e
  | .obj fs => hobj fs fun kv hkv =>
      have : sizeOf kv.2 < 1 + sizeOf fs := by
        have h1 := List.sizeOf_lt_of_mem hkv
        have h2 : sizeOf kv.2 < sizeOf kv := by
          obtain ⟨a, b⟩ := kv
          simp only [Prod.mk.sizeOf_spec]
          omega
        omega
      jsonInd P hnull hbool hnum hstr harr hobj kv.2
termination_by j => sizeOf j

theorem sanitizeArr_congr {es : List Json}
    (h : ∀ e ∈ es, sanitizeObject (sanitizeObject e) = sanitizeObject e) :
    sanitizeArr (sanitizeArr es) = sanitizeArr es := by
  induction es with
  | nil => rfl
  | cons e es ih =>
    simp only [sanitizeArr]
    rw [h e (List.mem_cons_self e es), ih fun x hx => h x (List.mem_cons_of_mem e hx)]

theorem sanitizeFields_congr {fs : List (Str × Json)}
    (h : ∀ kv ∈ fs, sanitizeObject (sanitizeObject kv.2) = sanitizeObject kv.2) :
    sanitizeFields (sanitizeFields fs) = sanitizeFields fs := by
  induction fs with
  | nil => rfl
  | cons kv fs ih =>
    obtain ⟨k, v⟩ := kv
    simp only [sanitizeFields]
    cases hk : isSensitiveParam k with
    | true =>
      simp only [hk, if_true]
      rw [ih fun x hx => h x (List.mem_cons_of_mem _ hx)]
    | false =>
      simp only [hk, Bool.false_eq_true, if_false]
      rw [show sanitizeObject (sanitizeObject v) = sanitizeObject v from
            h ⟨k, v⟩ (List.mem_cons_self _ fs),
          ih fun x hx => h x (List.mem_cons_of_mem _ hx)]

/-- `sanitizeObject` is idempotent. -/
theorem sanitizeObject_idem : ∀ j, sanitizeObject (sanitizeObject j) = sanitizeObject j := by
  refine jsonInd _ rfl (fun _ => rfl) (fun _ => rfl) (fun _ => rfl) ?_ ?_
  · intro es h
    simp only [sanitizeObject]
    rw [sanitizeArr_congr h]
  · intro fs h
    simp only [sanitizeObject]
    rw [sanitizeFields_congr h]

/-- A string that may legitimately follow a serialized JSON value inside a
larger serialized document: empty, or starting with a separator. -/
def delimB (s : Str) : Bool :=
  match s with
  | [] => true
  | c :: _ => c = ',' || c = ']' || c = '}'

/-- First characters a serialized JSON value can have: not whitespace and not
a closing/separating token. -/
def headOk (c : Char) : Bool :=
  !isJsonWs c && !(c = ',') && !(c = ']') && !(c = '}')

theorem dropWhile_cons_of_neg {p : Char → Bool} {c : Char} (t : Str) (h : p c = false) :
    (c :: t).dropWhile p = c :: t := by
  simp [List.dropWhile, h]

mutual

/-- Fuel sufficient for `parseV` to parse the serialization of a value. -/
def jfuel : Json → Nat
  | .arr [] => 1
  | .arr (e :: es) => 1 + jfuel e + afuel es
  | .obj [] => 1
  | .obj ((_, v) :: fs) => 1 + jfuel v + ofuel fs
  | _ => 1

/-- Fuel sufficient for `parseArrRest` on a serialized array tail. -/
def afuel : List Json → Nat
  | [] => 1
  | e :: es => 1 + jfuel e + afuel es

/-- Fuel sufficient for `parseObjRest` on a serialized object tail. -/
def ofuel : List (Str × Json) → Nat
  | [] => 1
  | (_, v) :: fs => 1 + jfuel v + ofuel fs

end

theorem takeWhile_append_all {p : Char → Bool} :
    ∀ (l l' : Str), (∀ x ∈ l, p x = true) →
      (match l' with | [] => True | c :: _ => p c = false) →
      (l ++ l').takeWhile p = l := by
  intro l
  induction l with
  | nil =>
    intro l' _ h2
    cases l' with
    | nil => rfl
    | cons c t => simp [List.takeWhile, h2]
  | cons a t ih =>
    intro l' h1 h2
    have ha : p a = true := h1 a (List.mem_cons_self _ _)
    simp only [List.cons_append, List.takeWhile, ha]
    show a :: List.takeWhile p (t ++ l') = a :: t
    rw [ih l' (fun x hx => h1 x (List.mem_cons_of_mem _ hx)) h2]

theorem litTok_self (w rest : Str) : litTok w (w ++ rest) = some rest := by
  unfold litTok
  rw [if_pos, List.drop_left]
  rw [List.isPrefixOf_iff_prefix]
  exact List.prefix_append w rest

theorem litTok_neq_head {a b : Char} (w t rest : Str) (h : b ≠ a) :
    litTok (a :: w) ((b :: t) ++ rest) = none := by
  unfold litTok
  rw [if_neg]
  intro hc
  rw [List.isPrefixOf_iff_prefix] at hc
  obtain ⟨u, hu⟩ := hc
  simp only [List.cons_append] at hu
  exact h (List.head_eq_of_cons_eq hu.symm)

theorem hexDigitVal_digitChar : ∀ n, n < 16 → hexDigitVal (Nat.digitChar n) = some n := by
  decide

theorem parseStrBody_escapeChar (c : Char) (s : Str) :
    parseStrBody (escapeChar c ++ s) = (parseStrBody s).map fun p => (c :: p.1, p.2) := by
  by_cases h1 : c = '"'
  · subst h1; rw [show escapeChar '"' ++ s = '\\' :: '"' :: s from rfl, parseStrBody.eq_def]
    simp [unescapeChar]
  by_cases h2 : c = '\\'
  · subst h2; rw [show escapeChar '\\' ++ s = '\\' :: '\\' :: s from rfl, parseStrBody.eq_def]
    simp [unescapeChar]
  by_cases h3 : c = '\x08'
  · subst h3; rw [show escapeChar '\x08' ++ s = '\\' :: 'b' :: s from rfl, parseStrBody.eq_def]
    simp [unescapeChar]
  by_cases h4 : c = '\x0c'
  · subst h4; rw [show escapeChar '\x0c' ++ s = '\\' :: 'f' :: s from rfl, parseStrBody.eq_def]
    simp [unescapeChar]
  by_cases h5 : c = '\n'
  · subst h5; rw [show escapeChar '\n' ++ s = '\\' :: 'n' :: s from rfl, parseStrBody.eq_def]
    simp [unescapeChar]
  by_cases h6 : c = '\r'
  · subst h6; rw [show escapeChar '\r' ++ s = '\\' :: 'r' :: s from rfl, parseStrBody.eq_def]
    simp [unescapeChar]
  by_cases h7 : c = '\t'
  · subst h7; rw [show escapeChar '\t' ++ s = '\\' :: 't' :: s from rfl, parseStrBody.eq_def]
    simp [unescapeChar]
  by_cases h8 : c.toNat < 32
  · have he : escapeChar c ++ s =
        '\\' :: 'u' :: '0' :: '0' :: Nat.digitChar (c.toNat / 16) ::
          Nat.digitChar (c.toNat % 16) :: s := by
      simp [escapeChar, h1, h2, h3, h4, h5, h6, h7, h8]
    have hd1 : hexDigitVal (Nat.digitChar (c.toNat / 16)) = some (c.toNat / 16) :=
      hexDigitVal_digitChar _ (by omega)
    have hd2 : hexDigitVal (Nat.digitChar (c.toNat % 16)) = some (c.toNat % 16) :=
      hexDigitVal_digitChar _ (by omega)
    have hsum : (0 : Nat) * 4096 + 0 * 256 + c.toNat / 16 * 16 + c.toNat % 16 = c.toNat := by
      omega
    have hch : Char.ofNat (c.toNat / 16 * 16 + c.toNat % 16) = c := by
      rw [show c.toNat / 16 * 16 + c.toNat % 16 = c.toNat from by omega, Char.ofNat_toNat]
    rw [he, parseStrBody.eq_def]
    simp only [reduceCtorEq, reduceIte, hd1, hd2]
    simp [hd1, hd2, hexDigitVal, hsum, hch]
  · have he : escapeChar c ++ s = c :: s := by
      simp [escapeChar, h1, h2, h3, h4, h5, h6, h7, h8]
    rw [he, parseStrBody.eq_def]
    simp [h1, h2, h8]

theorem parseStrBody_escapeStr (s rest : Str) :
    parseStrBody (escapeStr s ++ '"' :: rest) = some (s, rest) := by
  induction s with
  | nil =>
    rw [show escapeStr [] ++ '"' :: rest = '"' :: rest from rfl, parseStrBody.eq_def]
    simp
  | cons c t ih =>
    show parseStrBody ((escapeChar c ++ escapeStr t) ++ '"' :: rest) = some (c :: t, rest)
    rw [List.append_assoc, parseStrBody_escapeChar, ih]
    rfl

theorem jfuel_pos : ∀ v, 1 ≤ jfuel v := by
  intro v
  cases v with
  | arr es => cases es <;> (simp only [jfuel]; omega)
  | obj fs => cases fs with
    | nil => simp only [jfuel]; omega
    | cons f fs => obtain ⟨k, v⟩ := f; simp only [jfuel]; omega
  | _ => simp only [jfuel]; omega

theorem afuel_pos : ∀ es, 1 ≤ afuel es := by
  intro es; cases es <;> (simp only [afuel]; omega)

theorem ofuel_pos : ∀ fs, 1 ≤ ofuel fs := by
  intro fs
  cases fs with
  | nil => simp only [ofuel]; omega
  | cons f fs => obtain ⟨k, v⟩ := f; simp only [ofuel]; omega

theorem num_char_ne (c x : Char) (h : (c.isDigit || c = '-') = true)
    (h1 : x.isDigit = false) (h2 : ¬(x = '-')) : ¬(c = x) := by
  intro e
  subst e
  simp only [Bool.or_eq_true, decide_eq_true_eq] at h
  rcases h with h3 | h3
  · rw [h1] at h3; exact Bool.false_ne_true h3
  · exact h2 h3

theorem num_char_not_ws (c : Char) (h : (c.isDigit || c = '-') = true) :
    isJsonWs c = false := by
  have w1 := num_char_ne c ' ' h (by decide) (by decide)
  have w2 := num_char_ne c '\t' h (by decide) (by decide)
  have w3 := num_char_ne c '\n' h (by decide) (by decide)
  have w4 := num_char_ne c '\r' h (by decide) (by decide)
  simp [isJsonWs, w1, w2, w3, w4]

/-- The first character of a serialized well-formed JSON value is not
whitespace and not a separator or closing token. -/
theorem strV_cons (v : Json) (hwf : wfJ v = true) :
    ∃ c t, strV v = c :: t ∧ isJsonWs c = false ∧
      ¬(c = ']') ∧ ¬(c = '}') ∧ ¬(c = ',') := by
  cases v with
  | null =>
    exact ⟨'n', ['u', 'l', 'l'], by simp [strV], by decide, by decide, by decide, by decide⟩
  | bool b =>
    cases b with
    | true =>
      exact ⟨'t', ['r', 'u', 'e'], by simp [strV], by decide, by decide, by decide, by decide⟩
    | false =>
      exact ⟨'f', ['a', 'l', 's', 'e'], by simp [strV], by decide, by decide, by decide,
        by decide⟩
  | num lit =>
    cases lit with
    | nil => simp [wfJ] at hwf
    | cons c t =>
      simp only [wfJ, Bool.and_eq_true] at hwf
      have hh := hwf.1
      exact ⟨c, t, by simp [strV], num_char_not_ws c hh,
        num_char_ne c ']' hh (by decide) (by decide),
        num_char_ne c '}' hh (by decide) (by decide),
        num_char_ne c ',' hh (by decide) (by decide)⟩
  | str s =>
    exact ⟨'"', escapeStr s ++ ['"'], by simp [strV], by decide, by decide, by decide,
      by decide⟩
  | arr es =>
    exact ⟨'[', strElems es ++ [']'], by simp [strV], by decide, by decide, by decide,
      by decide⟩
  | obj fs =>
    exact ⟨'{', strFields fs ++ ['}'], by simp [strV], by decide, by decide, by decide,
      by decide⟩

theorem delimB_tailElems (es : List Json) (rest : Str) :
    delimB (tailElems es ++ ']' :: rest) = true := by
  cases es with
  | nil => simp [tailElems, delimB]
  | cons e es => simp [tailElems, delimB]

theorem delimB_tailFields (fs : List (Str × Json)) (rest : Str) :
    delimB (tailFields fs ++ '}' :: rest) = true := by
  cases fs with
  | nil => simp [tailFields, delimB]
  | cons f fs => obtain ⟨k, v⟩ := f; simp [tailFields, delimB]

theorem isNumChar_of_delim {x : Char} (rest : Str) (hd : delimB (x :: rest) = true) :
    isNumChar x = false := by
  simp only [delimB, Bool.or_eq_true, decide_eq_true_eq] at hd
  rcases hd with (h | h) | h <;> subst h <;> decide

theorem parseNum_round (c : Char) (t rest : Str)
    (hhead : (c.isDigit || c = '-') = true)
    (hall : (c :: t).all isNumChar = true)
    (hdelim : delimB rest = true) :
    parseNum ((c :: t) ++ rest) = some (.num (c :: t), rest) := by
  have htake : ((c :: t) ++ rest).takeWhile isNumChar = c :: t := by
    apply takeWhile_append_all
    · intro x hx
      exact List.all_eq_true.mp hall x hx
    · cases rest with
      | nil => trivial
      | cons x r => exact isNumChar_of_delim r hdelim
  have hdrop : ((c :: t) ++ rest).drop (c :: t).length = rest := List.drop_left _ _
  rw [show (c :: t) ++ rest = c :: (t ++ rest) from rfl, parseNum.eq_def]
  simp only [hhead, if_pos]
  rw [show c :: (t ++ rest) = (c :: t) ++ rest from rfl, htake, hdrop]

/-- Round trip: parsing the serialization of a well-formed JSON value inside a
larger serialized context recovers the value exactly. -/
theorem parse_round : ∀ fuel : Nat,
    (∀ v rest, wfJ v = true → delimB rest = true → jfuel v ≤ fuel →
      parseV fuel (strV v ++ rest) = some (v, rest)) ∧
    (∀ es rest, wfL es = true → delimB rest = true → afuel es ≤ fuel →
      parseArrRest fuel (tailElems es ++ ']' :: rest) = some (es, rest)) ∧
    (∀ fs rest, wfF fs = true → delimB rest = true → ofuel fs ≤ fuel →
      parseObjRest fuel (tailFields fs ++ '}' :: rest) = some (fs, rest)) := by
  intro fuel
  induction fuel with
  | zero =>
    refine ⟨?_, ?_, ?_⟩
    · intro v rest _ _ hf
      exact absurd hf (by have := jfuel_pos v; omega)
    · intro es rest _ _ hf
      exact absurd hf (by have := afuel_pos es; omega)
    · intro fs rest _ _ hf
      exact absurd hf (by have := ofuel_pos fs; omega)
  | succ fuel ih =>
    obtain ⟨IHv, IHa, IHo⟩ := ih
    refine ⟨?_, ?_, ?_⟩
    · intro v rest hwf hdelim hfuel
      cases v with
      | null =>
        have hs : strV Json.null ++ rest = 'n' :: ('u' :: 'l' :: 'l' :: rest) := by
          simp [strV]
        have hl : litTok ['n', 'u', 'l', 'l'] ('n' :: 'u' :: 'l' :: 'l' :: rest) = some rest :=
          litTok_self ['n', 'u', 'l', 'l'] rest
        have hdw : List.dropWhile isJsonWs ('n' :: ('u' :: 'l' :: 'l' :: rest)) =
            'n' :: ('u' :: 'l' :: 'l' :: rest) :=
          dropWhile_cons_of_neg _ (by decide)
        rw [hs, parseV.eq_def]
        simp [hdw, hl]
      | bool b =>
        cases b with
        | true =>
          have hs : strV (Json.bool true) ++ rest = 't' :: ('r' :: 'u' :: 'e' :: rest) := by
            simp [strV]
          have hl0 : litTok ['n', 'u', 'l', 'l'] ('t' :: 'r' :: 'u' :: 'e' :: rest) = none :=
            litTok_neq_head ['u', 'l', 'l'] ['r', 'u', 'e'] rest (by decide)
          have hl : litTok ['t', 'r', 'u', 'e'] ('t' :: 'r' :: 'u' :: 'e' :: rest) = some rest :=
            litTok_self ['t', 'r', 'u', 'e'] rest
          have hdw : List.dropWhile isJsonWs ('t' :: ('r' :: 'u' :: 'e' :: rest)) =
              't' :: ('r' :: 'u' :: 'e' :: rest) :=
            dropWhile_cons_of_neg _ (by decide)
          rw [hs, parseV.eq_def]
          simp [hdw, hl0, hl]
        | false =>
          have hs : strV (Json.bool false) ++ rest =
              'f' :: ('a' :: 'l' :: 's' :: 'e' :: rest) := by
            simp [strV]
          have hl0 : litTok ['n', 'u', 'l', 'l'] ('f' :: 'a' :: 'l' :: 's' :: 'e' :: rest) =
              none :=
            litTok_neq_head ['u', 'l', 'l'] ['a', 'l', 's', 'e'] rest (by decide)
          have hl1 : litTok ['t', 'r', 'u', 'e'] ('f' :: 'a' :: 'l' :: 's' :: 'e' :: rest) =
              none :=
            litTok_neq_head ['r', 'u', 'e'] ['a', 'l', 's', 'e'] rest (by decide)
          have hl : litTok ['f', 'a', 'l', 's', 'e'] ('f' :: 'a' :: 'l' :: 's' :: 'e' :: rest) =
              some rest :=
            litTok_self ['f', 'a', 'l', 's', 'e'] rest
          have hdw : List.dropWhile isJsonWs ('f' :: ('a' :: 'l' :: 's' :: 'e' :: rest)) =
              'f' :: ('a' :: 'l' :: 's' :: 'e' :: rest) :=
            dropWhile_cons_of_neg _ (by decide)
          rw [hs, parseV.eq_def]
          simp [hdw, hl0, hl1, hl]
      | num lit =>
        cases lit with
        | nil => simp [wfJ] at hwf
        | cons c t =>
          simp only [wfJ, Bool.and_eq_true] at hwf
          obtain ⟨hh, hall⟩ := hwf
          have hs : strV (Json.num (c :: t)) ++ rest = c :: (t ++ rest) := by
            simp [strV]
          have hdw : List.dropWhile isJsonWs (c :: (t ++ rest)) = c :: (t ++ rest) :=
            dropWhile_cons_of_neg _ (num_char_not_ws c hh)
          have hq : ¬(c = '"') := num_char_ne c '"' hh (by decide) (by decide)
          have hb : ¬(c = '[') := num_char_ne c '[' hh (by decide) (by decide)
          have hc : ¬(c = '{') := num_char_ne c '{' hh (by decide) (by decide)
          have hl0 : litTok ['n', 'u', 'l', 'l'] (c :: (t ++ rest)) = none := by
            have := litTok_neq_head (a := 'n') ['u', 'l', 'l'] t rest
              (num_char_ne c 'n' hh (by decide) (by decide))
            simpa using this
          have hl1 : litTok ['t', 'r', 'u', 'e'] (c :: (t ++ rest)) = none := by
            have := litTok_neq_head (a := 't') ['r', 'u', 'e'] t rest
              (num_char_ne c 't' hh (by decide) (by decide))
            simpa using this
          have hl2 : litTok ['f', 'a', 'l', 's', 'e'] (c :: (t ++ rest)) = none := by
            have := litTok_neq_head (a := 'f') ['a', 'l', 's', 'e'] t rest
              (num_char_ne c 'f' hh (by decide) (by decide))
            simpa using this
          have hpn : parseNum (c :: (t ++ rest)) = some (.num (c :: t), rest) := by
            have := parseNum_round c t rest hh hall hdelim
            simpa using this
          rw [hs, parseV.eq_def]
          simp [hdw, hq, hb, hc, hl0, hl1, hl2, hpn]
      | str s =>
        have hs : strV (Json.str s) ++ rest = '"' :: (escapeStr s ++ '"' :: rest) := by
          simp [strV]
        have hdw : List.dropWhile isJsonWs ('"' :: (escapeStr s ++ '"' :: rest)) =
            '"' :: (escapeStr s ++ '"' :: rest) :=
          dropWhile_cons_of_neg _ (by decide)
        rw [hs, parseV.eq_def]
        simp [hdw, parseStrBody_escapeStr]
      | arr es =>
        cases es with
        | nil =>
          have hs : strV (Json.arr []) ++ rest = '[' :: (']' :: rest) := by
            simp [strV, strElems]
          have hdw : List.dropWhile isJsonWs ('[' :: (']' :: rest)) = '[' :: (']' :: rest) :=
            dropWhile_cons_of_neg _ (by decide)
          have hdw2 : List.dropWhile isJsonWs (']' :: rest) = ']' :: rest :=
            dropWhile_cons_of_neg _ (by decide)
          rw [hs, parseV.eq_def]
          simp [hdw, hdw2]
        | cons e es =>
          simp only [wfJ, wfL, Bool.and_eq_true] at hwf
          obtain ⟨hwe, hwes⟩ := hwf
          simp only [jfuel] at hfuel
          obtain ⟨c0, t0, hce, hc0w, hc0r, _, _⟩ := strV_cons e hwe
          have hs : strV (Json.arr (e :: es)) ++ rest =
              '[' :: (c0 :: (t0 ++ (tailElems es ++ ']' :: rest))) := by
            simp [strV, strElems, hce]
          have hdw : List.dropWhile isJsonWs
              ('[' :: (c0 :: (t0 ++ (tailElems es ++ ']' :: rest)))) =
              '[' :: (c0 :: (t0 ++ (tailElems es ++ ']' :: rest))) :=
            dropWhile_cons_of_neg _ (by decide)
          have hdw2 : List.dropWhile isJsonWs (c0 :: (t0 ++ (tailElems es ++ ']' :: rest))) =
              c0 :: (t0 ++ (tailElems es ++ ']' :: rest)) :=
            dropWhile_cons_of_neg _ hc0w
          have hpv : parseV fuel (c0 :: (t0 ++ (tailElems es ++ ']' :: rest))) =
              some (e, tailElems es ++ ']' :: rest) := by
            rw [show c0 :: (t0 ++ (tailElems es ++ ']' :: rest)) =
                  strV e ++ (tailElems es ++ ']' :: rest) from by simp [hce]]
            exact IHv e _ hwe (delimB_tailElems es rest) (by omega)
          have hpa : parseArrRest fuel (tailElems es ++ ']' :: rest) = some (es, rest) :=
            IHa es rest hwes hdelim (by omega)
          rw [hs, parseV.eq_def]
          simp [hdw, hdw2, hc0r, hpv, hpa]
      | obj fs =>
        cases fs with
        | nil =>
          have hs : strV (Json.obj []) ++ rest = '{' :: ('}' :: rest) := by
            simp [strV, strFields]
          have hdw : List.dropWhile isJsonWs ('{' :: ('}' :: rest)) = '{' :: ('}' :: rest) :=
            dropWhile_cons_of_neg _ (by decide)
          have hdw2 : List.dropWhile isJsonWs ('}' :: rest) = '}' :: rest :=
            dropWhile_cons_of_neg _ (by decide)
          rw [hs, parseV.eq_def]
          simp [hdw, hdw2]
        | cons f fs =>
          obtain ⟨k, v⟩ := f
          simp only [wfJ, wfF, Bool.and_eq_true] at hwf
          obtain ⟨hwv, hwfs⟩ := hwf
          simp only [jfuel] at hfuel
          have hs : strV (Json.obj ((k, v) :: fs)) ++ rest =
              '{' :: ('"' :: (escapeStr k ++ '"' ::
                (':' :: (strV v ++ (tailFields fs ++ '}' :: rest))))) := by
            simp [strV, strFields, strField]
          have hdw : List.dropWhile isJsonWs
              ('{' :: ('"' :: (escapeStr k ++ '"' ::
                (':' :: (strV v ++ (tailFields fs ++ '}' :: rest)))))) =
              '{' :: ('"' :: (escapeStr k ++ '"' ::
                (':' :: (strV v ++ (tailFields fs ++ '}' :: rest))))) :=
            dropWhile_cons_of_neg _ (by decide)
          have hdw2 : List.dropWhile isJsonWs
              ('"' :: (escapeStr k ++ '"' ::
                (':' :: (strV v ++ (tailFields fs ++ '}' :: rest))))) =
              '"' :: (escapeStr k ++ '"' ::
                (':' :: (strV v ++ (tailFields fs ++ '}' :: rest)))) :=
            dropWhile_cons_of_neg _ (by decide)
          have hkey : parseStrBody (escapeStr k ++ '"' ::
              (':' :: (strV v ++ (tailFields fs ++ '}' :: rest)))) =
              some (k, ':' :: (strV v ++ (tailFields fs ++ '}' :: rest))) :=
            parseStrBody_escapeStr k _
          have hdw3 : List.dropWhile isJsonWs
              (':' :: (strV v ++ (tailFields fs ++ '}' :: rest))) =
              ':' :: (strV v ++ (tailFields fs ++ '}' :: rest)) :=
            dropWhile_cons_of_neg _ (by decide)
          have hpv : parseV fuel (strV v ++ (tailFields fs ++ '}' :: rest)) =
              some (v, tailFields fs ++ '}' :: rest) :=
            IHv v _ hwv (delimB_tailFields fs rest) (by omega)
          have hpo : parseObjRest fuel (tailFields fs ++ '}' :: rest) = some (fs, rest) :=
            IHo fs rest hwfs hdelim (by omega)
          rw [hs, parseV.eq_def]
          simp [hdw, hdw2, hkey, hdw3, hpv, hpo]
    · intro es rest hwf hdelim hfuel
      cases es with
      | nil =>
        have hdw : List.dropWhile isJsonWs (']' :: rest) = ']' :: rest :=
          dropWhile_cons_of_neg _ (by decide)
        rw [show tailElems [] ++ ']' :: rest = ']' :: rest from by simp [tailElems],
          parseArrRest.eq_def]
        simp [hdw]
      | cons e es =>
        simp only [wfL, Bool.and_eq_true] at hwf
        obtain ⟨hwe, hwes⟩ := hwf
        simp only [afuel] at hfuel
        obtain ⟨c0, t0, hce, hc0w, _, _, _⟩ := strV_cons e hwe
        have hs : tailElems (e :: es) ++ ']' :: rest =
            ',' :: (c0 :: (t0 ++ (tailElems es ++ ']' :: rest))) := by
          simp [tailElems, hce]
        have hdw : List.dropWhile isJsonWs
            (',' :: (c0 :: (t0 ++ (tailElems es ++ ']' :: rest)))) =
            ',' :: (c0 :: (t0 ++ (tailElems es ++ ']' :: rest))) :=
          dropWhile_cons_of_neg _ (by decide)
        have hpv : parseV fuel (c0 :: (t0 ++ (tailElems es ++ ']' :: rest))) =
            some (e, tailElems es ++ ']' :: rest) := by
          rw [show c0 :: (t0 ++ (tailElems es ++ ']' :: rest)) =
                strV e ++ (tailElems es ++ ']' :: rest) from by simp [hce]]
          exact IHv e _ hwe (delimB_tailElems es rest) (by omega)
        have hpa : parseArrRest fuel (tailElems es ++ ']' :: rest) = some (es, rest) :=
          IHa es rest hwes hdelim (by omega)
        rw [hs, parseArrRest.eq_def]
        simp [hdw, hpv, hpa]
    · intro fs rest hwf hdelim hfuel
      cases fs with
      | nil =>
        have hdw : List.dropWhile isJsonWs ('}' :: rest) = '}' :: rest :=
          dropWhile_cons_of_neg _ (by decide)
        rw [show tailFields [] ++ '}' :: rest = '}' :: rest from by simp [tailFields],
          parseObjRest.eq_def]
        simp [hdw]
      | cons f fs =>
        obtain ⟨k, v⟩ := f
        simp only [wfF, Bool.and_eq_true] at hwf
        obtain ⟨hwv, hwfs⟩ := hwf
        simp only [ofuel] at hfuel
        have hs : tailFields ((k, v) :: fs) ++ '}' :: rest =
            ',' :: ('"' :: (escapeStr k ++ '"' ::
              (':' :: (strV v ++ (tailFields fs ++ '}' :: rest))))) := by
          simp [tailFields, strField]
        have hdw : List.dropWhile isJsonWs
            (',' :: ('"' :: (escapeStr k ++ '"' ::
              (':' :: (strV v ++ (tailFields fs ++ '}' :: rest)))))) =
            ',' :: ('"' :: (escapeStr k ++ '"' ::
              (':' :: (strV v ++ (tailFields fs ++ '}' :: rest))))) :=
          dropWhile_cons_of_neg _ (by decide)
        have hdw2 : List.dropWhile isJsonWs
            ('"' :: (escapeStr k ++ '"' ::
              (':' :: (strV v ++ (tailFields fs ++ '}' :: rest))))) =
            '"' :: (escapeStr k ++ '"' ::
              (':' :: (strV v ++ (tailFields fs ++ '}' :: rest)))) :=
          dropWhile_cons_of_neg _ (by decide)
        have hkey : parseStrBody (escapeStr k ++ '"' ::
            (':' :: (strV v ++ (tailFields fs ++ '}' :: rest)))) =
            some (k, ':' :: (strV v ++ (tailFields fs ++ '}' :: rest))) :=
          parseStrBody_escapeStr k _
        have hdw3 : List.dropWhile isJsonWs
            (':' :: (strV v ++ (tailFields fs ++ '}' :: rest))) =
            ':' :: (strV v ++ (tailFields fs ++ '}' :: rest)) :=
          dropWhile_cons_of_neg _ (by decide)
        have hpv : parseV fuel (strV v ++ (tailFields fs ++ '}' :: rest)) =
            some (v, tailFields fs ++ '}' :: rest) :=
          IHv v _ hwv (delimB_tailFields fs rest) (by omega)
        have hpo : parseObjRest fuel (tailFields fs ++ '}' :: rest) = some (fs, rest) :=
          IHo fs rest hwfs hdelim (by omega)
        rw [hs, parseObjRest.eq_def]
        simp [hdw, hdw2, hkey, hdw3, hpv, hpo]

mutual

theorem jfuel_le : ∀ v, wfJ v = true → jfuel v ≤ (strV v).length
  | .null, _ => by simp [jfuel, strV]
  | .bool b, _ => by cases b <;> simp [jfuel, strV]
  | .num lit, hwf => by
    cases lit with
    | nil => simp [wfJ] at hwf
    | cons c t => simp [jfuel, strV]
  | .str s, _ => by simp [jfuel, strV]
  | .arr [], _ => by simp [jfuel, strV, strElems]
  | .arr (e :: es), hwf => by
    simp only [wfJ, wfL, Bool.and_eq_true] at hwf
    have h1 := jfuel_le e hwf.1
    have h2 := afuel_le es hwf.2
    simp only [jfuel, strV, strElems]
    simp
    omega
  | .obj [], _ => by simp [jfuel, strV, strFields]
  | .obj ((k, v) :: fs), hwf => by
    simp only [wfJ, wfF, Bool.and_eq_true] at hwf
    have h1 := jfuel_le v hwf.1
    have h2 := ofuel_le fs hwf.2
    simp only [jfuel, strV, strFields, strField]
    simp
    omega

theorem afuel_le : ∀ es, wfL es = true → afuel es ≤ (tailElems es).length + 1
  | [], _ => by simp [afuel, tailElems]
  | e :: es, hwf => by
    simp only [wfL, Bool.and_eq_true] at hwf
    have h1 := jfuel_le e hwf.1
    have h2 := afuel_le es hwf.2
    simp only [afuel, tailElems]
    simp
    omega

theorem ofuel_le : ∀ fs, wfF fs = true → ofuel fs ≤ (tailFields fs).length + 1
  | [], _ => by simp [ofuel, tailFields]
  | (k, v) :: fs, hwf => by
    simp only [wfF, Bool.and_eq_true] at hwf
    have h1 := jfuel_le v hwf.1
    have h2 := ofuel_le fs hwf.2
    simp only [ofuel, tailFields, strField]
    simp
    omega

end

/-- `JSON.parse` inverts `JSON.stringify` on well-formed values. -/
theorem parseJson_strV (v : Json) (hwf : wfJ v = true) : parseJson (strV v) = some v := by
  unfold parseJson
  have hfuel : jfuel v ≤ (strV v).length + 1 := le_trans (jfuel_le v hwf) (by omega)
  have h := (parse_round ((strV v).length + 1)).1 v [] hwf (by simp [delimB]) hfuel
  rw [List.append_nil] at h
  rw [h]
  simp

theorem parseNum_wf (s : Str) (v : Json) (r : Str) (h : parseNum s = some (v, r)) :
    wfJ v = true := by
  cases s with
  | nil => simp [parseNum] at h
  | cons c t =>
    rw [parseNum.eq_def] at h
    by_cases hc : (c.isDigit || c = '-') = true
    · simp only [hc, if_pos] at h
      have hv : v = .num ((c :: t).takeWhile isNumChar) := by
        cases h
        rfl
      subst hv
      have hnc : isNumChar c = true := by
        simp only [Bool.or_eq_true, decide_eq_true_eq] at hc
        rcases hc with h1 | h1
        · simp [isNumChar, h1]
        · subst h1; decide
      simp only [wfJ, Bool.and_eq_true]
      refine ⟨?_, ?_⟩
      · simp only [List.takeWhile, hnc]
        exact hc
      · rw [List.all_eq_true]
        intro x hx
        exact List.mem_takeWhile_imp hx
    · simp [hc] at h

theorem parseV_wf_all : ∀ fuel,
    (∀ s v r, parseV fuel s = some (v, r) → wfJ v = true) ∧
    (∀ s es r, parseArrRest fuel s = some (es, r) → wfL es = true) ∧
    (∀ s fs r, parseObjRest fuel s = some (fs, r) → wfF fs = true) := by
  intro fuel
  induction fuel with
  | zero =>
    refine ⟨?_, ?_, ?_⟩ <;> intro s a r h <;>
      simp [parseV, parseArrRest, parseObjRest] at h
  | succ fuel ih =>
    obtain ⟨IHv, IHa, IHo⟩ := ih
    refine ⟨?_, ?_, ?_⟩
    · intro s v r h
      rw [parseV.eq_2] at h
      split at h
      · exact absurd h (by simp)
      · rename_i c rest heqdw
        split at h
        · cases hps : parseStrBody rest with
          | none => rw [hps] at h; exact absurd h (by simp)
          | some p =>
            rw [hps] at h
            simp only [Option.map_some'] at h
            cases h
            simp [wfJ.eq_def]
        · split at h
          · split at h
            · exact absurd h (by simp)
            · rename_i c2 r2 heqdw2
              split at h
              · cases h
                simp [wfJ.eq_def, wfL]
              · cases hp : parseV fuel (c2 :: r2) with
                | none => rw [hp] at h; exact absurd h (by simp)
                | some p =>
                  rw [hp] at h
                  simp only [Option.some_bind] at h
                  cases hq : parseArrRest fuel p.2 with
                  | none => rw [hq] at h; exact absurd h (by simp)
                  | some q =>
                    rw [hq] at h
                    simp only [Option.map_some'] at h
                    cases h
                    simp only [wfJ, wfL, Bool.and_eq_true]
                    exact ⟨IHv _ p.1 p.2 (by rw [hp]), IHa _ q.1 q.2 (by rw [hq])⟩
          · split at h
            · split at h
              · exact absurd h (by simp)
              · rename_i c2 r2 heqdw2
                split at h
                · cases h
                  simp [wfJ.eq_def, wfF]
                · split at h
                  · cases hkp : parseStrBody r2 with
                    | none => rw [hkp] at h; exact absurd h (by simp)
                    | some kp =>
                      rw [hkp] at h
                      simp only [Option.some_bind] at h
                      split at h
                      · exact absurd h (by simp)
                      · rename_i c3 r3 heqdw3
                        split at h
                        · cases hvp : parseV fuel r3 with
                          | none => rw [hvp] at h; exact absurd h (by simp)
                          | some vp =>
                            rw [hvp] at h
                            simp only [Option.some_bind] at h
                            cases hq : parseObjRest fuel vp.2 with
                            | none => rw [hq] at h; exact absurd h (by simp)
                            | some q =>
                              rw [hq] at h
                              simp only [Option.map_some'] at h
                              cases h
                              simp only [wfJ, wfF, Bool.and_eq_true]
                              exact ⟨IHv _ vp.1 vp.2 (by rw [hvp]),
                                IHo _ q.1 q.2 (by rw [hq])⟩
                        · exact absurd h (by simp)
                  · exact absurd h (by simp)
            · split at h
              · cases h
                simp [wfJ.eq_def]
              · split at h
                · cases h
                  simp [wfJ.eq_def]
                · split at h
                  · cases h
                    simp [wfJ.eq_def]
                  · exact parseNum_wf _ v r h
    · intro s es r h
      rw [parseArrRest.eq_2] at h
      split at h
      · exact absurd h (by simp)
      · rename_i c rest heqdw
        split at h
        · cases h
          simp [wfL]

        · split at h
          · cases hp : parseV fuel rest with
            | none => rw [hp] at h; exact absurd h (by simp)
            | some p =>
              rw [hp] at h
              simp only [Option.some_bind] at h
              cases hq : parseArrRest fuel p.2 with
              | none => rw [hq] at h; exact absurd h (by simp)
              | some q =>
                rw [hq] at h
                simp only [Option.map_some'] at h
                cases h
                simp only [wfL, Bool.and_eq_true]
                exact ⟨IHv _ p.1 p.2 (by rw [hp]), IHa _ q.1 q.2 (by rw [hq])⟩
          · exact absurd h (by simp)
    · intro s fs r h
      rw [parseObjRest.eq_2] at h
      split at h
      · exact absurd h (by simp)
      · rename_i c rest heqdw
        split at h
        · cases h
          simp [wfF]
        · split at h
          · split at h
            · exact absurd h (by simp)
            · rename_i c2 r2 heqdw2
              split at h
              · cases hkp : parseStrBody r2 with
                | none => rw [hkp] at h; exact absurd h (by simp)
                | some kp =>
                  rw [hkp] at h
                  simp only [Option.some_bind] at h
                  split at h
                  · exact absurd h (by simp)
                  · rename_i c3 r3 heqdw3
                    split at h
                    · cases hvp : parseV fuel r3 with
                      | none => rw [hvp] at h; exact absurd h (by simp)
                      | some vp =>
                        rw [hvp] at h
                        simp only [Option.some_bind] at h
                        cases hq : parseObjRest fuel vp.2 with
                        | none => rw [hq] at h; exact absurd h (by simp)
                        | some q =>
                          rw [hq] at h
                          simp only [Option.map_some'] at h
                          cases h
                          simp only [wfF, Bool.and_eq_true]
                          exact ⟨IHv _ vp.1 vp.2 (by rw [hvp]), IHo _ q.1 q.2 (by rw [hq])⟩
                    · exact absurd h (by simp)
              · exact absurd h (by simp)
          · exact absurd h (by simp)

/-- Every value produced by the modelled `JSON.parse` is well-formed. -/
theorem parseJson_wf (s : Str) (v : Json) (h : parseJson s = some v) : wfJ v = true := by
  unfold parseJson at h
  cases hp : parseV (s.length + 1) s with
  | none => rw [hp] at h; exact absurd h (by simp)
  | some p =>
    obtain ⟨v2, r2⟩ := p
    rw [hp] at h
    have h2 : (if r2.dropWhile isJsonWs = [] then some v2 else none) = some v := h
    split at h2
    · cases h2
      exact (parseV_wf_all (s.length + 1)).1 s v r2 (by rw [hp])
    · exact absurd h2 (by simp)

theorem sanitizeArr_wf {es : List Json}
    (h : ∀ e ∈ es, wfJ e = true → wfJ (sanitizeObject e) = true)
    (hwf : wfL es = true) : wfL (sanitizeArr es) = true := by
  induction es with
  | nil => simp [sanitizeArr, wfL]
  | cons e es ih =>
    simp only [wfL, Bool.and_eq_true] at hwf
    simp only [sanitizeArr, wfL, Bool.and_eq_true]
    exact ⟨h e (List.mem_cons_self _ _) hwf.1,
      ih (fun x hx => h x (List.mem_cons_of_mem _ hx)) hwf.2⟩

theorem sanitizeFields_wf {fs : List (Str × Json)}
    (h : ∀ kv ∈ fs, wfJ kv.2 = true → wfJ (sanitizeObject kv.2) = true)
    (hwf : wfF fs = true) : wfF (sanitizeFields fs) = true := by
  induction fs with
  | nil => simp [sanitizeFields, wfF]
  | cons kv fs ih =>
    obtain ⟨k, v⟩ := kv
    simp only [wfF, Bool.and_eq_true] at hwf
    simp only [sanitizeFields, wfF, Bool.and_eq_true]
    refine ⟨?_, ih (fun x hx => h x (List.mem_cons_of_mem _ hx)) hwf.2⟩
    by_cases hk : isSensitiveParam k = true
    · simp [hk, wfJ.eq_def]
    · simp only [hk, if_false, Bool.false_eq_true]
      exact h ⟨k, v⟩ (List.mem_cons_self _ _) hwf.1

/-- `sanitizeObject` preserves well-formedness. -/
theorem wfJ_sanitizeObject : ∀ j, wfJ j = true → wfJ (sanitizeObject j) = true := by
  refine jsonInd _ ?_ ?_ ?_ ?_ ?_ ?_
  · intro h; exact h
  · intro b h; exact h
  · intro l h; exact h
  · intro s h; exact h
  · intro es h hwf
    simp only [sanitizeObject, wfJ] at hwf ⊢
    exact sanitizeArr_wf h hwf
  · intro fs h hwf
    simp only [sanitizeObject, wfJ] at hwf ⊢
    exact sanitizeFields_wf h hwf

/-! ### Model of the platform WHATWG `URL` / `URLSearchParams`

`new URL(url)` is modelled as splitting the string into the part before the
query, the query, and the fragment, guarded by a scheme check (an alphabetic
scheme followed by `:`); host/path normalization is not modelled, so
serialization is plain reassembly.  The query is modelled in
`application/x-www-form-urlencoded` form as `URLSearchParams` does: `&`-split,
first-`=`-split pairs, `+` for space and `%XX` percent-encoding (multi-byte
UTF-8 encoding of non-ASCII characters is simplified to leaving them intact,
which does not affect any property proved here). -/

/-- Split a string at the first occurrence of `sep`; the second component is
`none` when `sep` does not occur. -/
def splitFirst (sep : Char) : Str → Str × Option Str
  | [] => ([], none)
  | c :: t =>
    if c = sep then ([], some t)
    else
      let p := splitFirst sep t
      (c :: p.1, p.2)

/-- Scheme tail scan: alphabetic characters then `:`. -/
def schemeRest : Str → Bool
  | [] => false
  | c :: t => if c = ':' then true else if c.isAlpha then schemeRest t else false

/-- Model of the `new URL` validity check used here: a nonempty alphabetic
scheme followed by `:`. -/
def validScheme : Str → Bool
  | [] => false
  | c :: t => if c.isAlpha then schemeRest t else false

/-- The components of a parsed URL in this model. -/
structure ParsedUrl where
  base : Str
  query : Option Str
  frag : Option Str
deriving DecidableEq, Repr

/-- Model of `new URL(s)`: `none` models the thrown `TypeError`. -/
def parseUrl (s : Str) : Option ParsedUrl :=
  if validScheme s then
    let pf := splitFirst '#' s
    let bq := splitFirst '?' pf.1
    some ⟨bq.1, bq.2, pf.2⟩
  else none

/-- Model of `URL.prototype.toString` in this model: plain reassembly. -/
def serializeUrl (u : ParsedUrl) : Str :=
  u.base ++
    (match u.query with
     | some q => '?' :: q
     | none => []) ++
    (match u.frag with
     | some f => '#' :: f
     | none => [])

/-- Characters kept verbatim by form-urlencoding. -/
def formAllowed (c : Char) : Bool :=
  c.isAlphanum || c = '*' || c = '-' || c = '.' || c = '_'

/-- An uppercase hexadecimal digit. -/
def hexDigitUpper (n : Nat) : Char :=
  if n < 10 then Char.ofNat (48 + n) else Char.ofNat (55 + n)

/-- Form-urlencode one character. -/
def encodeChar (c : Char) : Str :=
  if formAllowed c then [c]
  else if c = ' ' then ['+']
  else if c.toNat < 256 then ['%', hexDigitUpper (c.toNat / 16), hexDigitUpper (c.toNat % 16)]
  else [c]

/-- Form-urlencode a string. -/
def encodeStr : Str → Str
  | [] => []
  | c :: t => encodeChar c ++ encodeStr t

/-- Form-urldecode a string (`+` to space, `%XX` to the coded character,
malformed escapes kept verbatim). -/
def decodeStr : Str → Str
  | [] => []
  | c :: t =>
    if c = '+' then ' ' :: decodeStr t
    else if c = '%' then
      match t with
      | a :: b :: r =>
        match hexDigitVal a, hexDigitVal b with
        | some va, some vb => Char.ofNat (va * 16 + vb) :: decodeStr r
        | _, _ => c :: decodeStr (a :: b :: r)
      | u => c :: decodeStr u
    else c :: decodeStr t
termination_by s => s.length
decreasing_by all_goals (simp; try omega)

/-- Tail of an `&`-joined list (a leading `&` per further piece). -/
def tailAmp : List Str → Str
  | [] => []
  | x :: xs => '&' :: (x ++ tailAmp xs)

/-- Join pieces with `&`. -/
def joinAmp : List Str → Str
  | [] => []
  | x :: xs => x ++ tailAmp xs

/-- Split a string on every `&`. -/
def splitAmp : Str → List Str
  | [] => [[]]
  | c :: t =>
    if c = '&' then [] :: splitAmp t
    else
      match splitAmp t with
      | [] => [[c]]
      | seg :: segs => (c :: seg) :: segs

/-- Model of the `URLSearchParams` constructor on a query string (without the
leading `?`): `&`-split, first-`=`-split, decoded pairs; empty segments are
skipped. -/
def parseQuery (q : Str) : List (Str × Str) :=
  ((splitAmp q).filter (fun seg => !seg.isEmpty)).map fun seg =>
    let p := splitFirst '=' seg
    (decodeStr p.1, decodeStr (p.2.getD []))

/-- Model of `URLSearchParams.prototype.toString`. -/
def serializeQuery (l : List (Str × Str)) : Str :=
  joinAmp (l.map fun p => encodeStr p.1 ++ '=' :: encodeStr p.2)

/-- Model of `URLSearchParams.prototype.set`: replace the value of the first
entry with the given name, drop later entries with that name, append when the
name is absent. -/
def setParam : List (Str × Str) → Str → Str → List (Str × Str)
  | [], n, v => [(n, v)]
  | (m, w) :: t, n, v =>
    if m = n then (n, v) :: t.filter (fun p => !decide (p.1 = n))
    else (m, w) :: setParam t n v

/-- The `for (const [name] of params) { if (isSensitiveParam(name))
params.set(name, REDACTED); }` loop of `sanitizeUrl` in `lib/sanitizer.js`,
modelled as iteration over a snapshot of the entries (equivalent to the live
iterator on every run that starts at the first entry, since `set` keeps the
first occurrence of the name in place and only removes later duplicates). -/
def sanParamsLoop : List (Str × Str) → List (Str × Str) → Bool → List (Str × Str) × Bool
  | [], params, modified => (params, modified)
  | (n, _) :: rest, params, modified =>
    if isSensitiveParam n then sanParamsLoop rest (setParam params n REDACTED) true
    else sanParamsLoop rest params modified

/-- `sanitizeUrl` from `lib/sanitizer.js`. -/
def sanitizeUrl (url : Str) (sanitizeParams : Bool) : Str :=
  if !sanitizeParams || url.isEmpty then url
  else
    match parseUrl url with
    | none => url
    | some u =>
      let params := parseQuery (u.query.getD [])
      let lp := sanParamsLoop params params false
      if lp.2 then serializeUrl ⟨u.base, some (serializeQuery lp.1), u.frag⟩ else url

theorem hexDigitVal_hexDigitUpper : ∀ n, n < 16 → hexDigitVal (hexDigitUpper n) = some n := by
  decide

theorem formAllowed_ne {c x : Char} (h : formAllowed c = true) (hx : formAllowed x = false) :
    ¬(c = x) := by
  intro e
  subst e
  rw [h] at hx
  simp at hx

theorem decodeStr_encodeChar (c : Char) (t : Str) :
    decodeStr (encodeChar c ++ t) = c :: decodeStr t := by
  by_cases h1 : formAllowed c = true
  · have hp : ¬(c = '+') := formAllowed_ne h1 (by decide)
    have hc : ¬(c = '%') := formAllowed_ne h1 (by decide)
    rw [show encodeChar c ++ t = c :: t from by simp [encodeChar, h1]]
    rw [decodeStr.eq_def]
    simp [hp, hc]
  · by_cases h2 : c = ' '
    · subst h2
      rw [show encodeChar ' ' ++ t = '+' :: t from by simp [encodeChar, formAllowed]]
      rw [decodeStr.eq_def]
      simp
    · by_cases h3 : c.toNat < 256
      · have he : encodeChar c ++ t =
            '%' :: hexDigitUpper (c.toNat / 16) :: hexDigitUpper (c.toNat % 16) :: t := by
          simp [encodeChar, h1, h2, h3]
        have hd1 : hexDigitVal (hexDigitUpper (c.toNat / 16)) = some (c.toNat / 16) :=
          hexDigitVal_hexDigitUpper _ (by omega)
        have hd2 : hexDigitVal (hexDigitUpper (c.toNat % 16)) = some (c.toNat % 16) :=
          hexDigitVal_hexDigitUpper _ (by omega)
        have hch : Char.ofNat (c.toNat / 16 * 16 + c.toNat % 16) = c := by
          rw [show c.toNat / 16 * 16 + c.toNat % 16 = c.toNat from by omega, Char.ofNat_toNat]
        rw [he, decodeStr.eq_def]
        simp [hd1, hd2, hch]
      · have hp : ¬(c = '+') := by
          intro e; subst e; exact h3 (by decide)
        have hc : ¬(c = '%') := by
          intro e; subst e; exact h3 (by decide)
        rw [show encodeChar c ++ t = c :: t from by simp [encodeChar, h1, h2, h3]]
        rw [decodeStr.eq_def]
        simp [hp, hc]

theorem decodeStr_encodeStr (s : Str) :
    ∀ t, decodeStr (encodeStr s ++ t) = s ++ decodeStr t := by
  induction s with
  | nil => intro t; simp [encodeStr]
  | cons c u ih =>
    intro t
    show decodeStr ((encodeChar c ++ encodeStr u) ++ t) = c :: (u ++ decodeStr t)
    rw [List.append_assoc, decodeStr_encodeChar, ih]

theorem decodeStr_encodeStr_nil (s : Str) : decodeStr (encodeStr s) = s := by
  have := decodeStr_encodeStr s []
  simpa [decodeStr] using this

/-- The characters emitted by form-urlencoding never include the structural
characters of queries and URLs. -/
theorem encodeChar_safe (c : Char) :
    ∀ x ∈ encodeChar c, ¬(x = '&') ∧ ¬(x = '=') ∧ ¬(x = '#') ∧ ¬(x = '?') := by
  intro x hx
  by_cases h1 : formAllowed c = true
  · simp only [encodeChar, h1, if_pos, List.mem_singleton] at hx
    subst hx
    exact ⟨formAllowed_ne h1 (by decide), formAllowed_ne h1 (by decide),
      formAllowed_ne h1 (by decide), formAllowed_ne h1 (by decide)⟩
  · by_cases h2 : c = ' '
    · subst h2
      simp only [encodeChar, formAllowed, if_pos] at hx
      simp at hx
      subst hx
      refine ⟨by decide, by decide, by decide, by decide⟩
    · by_cases h3 : c.toNat < 256
      · simp only [encodeChar, h1, h2, h3, Bool.false_eq_true, if_false, if_pos,
          List.mem_cons, List.mem_singleton] at hx
        have hup : ∀ n, n < 16 →
            ¬(hexDigitUpper n = '&') ∧ ¬(hexDigitUpper n = '=') ∧
            ¬(hexDigitUpper n = '#') ∧ ¬(hexDigitUpper n = '?') := by
          decide
        rcases hx with hx | hx | hx | hx
        · subst hx; refine ⟨by decide, by decide, by decide, by decide⟩
        · subst hx; exact hup (c.toNat / 16) (by omega)
        · subst hx; exact hup (c.toNat % 16) (by omega)
        · simp at hx
      · simp only [encodeChar, h1, h2, h3, Bool.false_eq_true, if_false,
          List.mem_singleton] at hx
        subst hx
        refine ⟨?_, ?_, ?_, ?_⟩ <;> (intro e; subst e; exact h3 (by decide))

theorem splitFirst_append {sep : Char} (x y : Str) (hx : ∀ c ∈ x, ¬(c = sep)) :
    splitFirst sep (x ++ sep :: y) = (x, some y) := by
  induction x with
  | nil => simp [splitFirst]
  | cons c t ih =>
    have hc : ¬(c = sep) := hx c (List.mem_cons_self _ _)
    simp only [List.cons_append, splitFirst, hc, if_false, List.append_eq]
    rw [ih fun a ha => hx a (List.mem_cons_of_mem _ ha)]

theorem splitFirst_free {sep : Char} (x : Str) (hx : ∀ c ∈ x, ¬(c = sep)) :
    splitFirst sep x = (x, none) := by
  induction x with
  | nil => simp [splitFirst]
  | cons c t ih =>
    have hc : ¬(c = sep) := hx c (List.mem_cons_self _ _)
    simp only [splitFirst, hc, if_false]
    rw [ih fun a ha => hx a (List.mem_cons_of_mem _ ha)]

theorem splitFirst_fst_no_sep {sep : Char} :
    ∀ s : Str, ∀ c ∈ (splitFirst sep s).1, ¬(c = sep) := by
  intro s
  induction s with
  | nil => intro c hc; simp [splitFirst] at hc
  | cons a t ih =>
    intro c hc
    by_cases ha : a = sep
    · simp [splitFirst, ha] at hc
    · simp only [splitFirst, ha, if_false] at hc
      rcases List.mem_cons.mp hc with h | h
      · subst h; exact ha
      · exact ih c h

theorem splitFirst_fst_mem {sep : Char} :
    ∀ s : Str, ∀ c ∈ (splitFirst sep s).1, c ∈ s := by
  intro s
  induction s with
  | nil => intro c hc; simp [splitFirst] at hc
  | cons a t ih =>
    intro c hc
    by_cases ha : a = sep
    · simp [splitFirst, ha] at hc
    · simp only [splitFirst, ha, if_false] at hc
      rcases List.mem_cons.mp hc with h | h
      · subst h; exact List.mem_cons_self _ _
      · exact List.mem_cons_of_mem _ (ih c h)

theorem splitAmp_free (x : Str) (hx : ∀ c ∈ x, ¬(c = '&')) : splitAmp x = [x] := by
  induction x with
  | nil => simp [splitAmp]
  | cons c t ih =>
    have hc : ¬(c = '&') := hx c (List.mem_cons_self _ _)
    simp only [splitAmp, hc, if_false]
    rw [ih fun a ha => hx a (List.mem_cons_of_mem _ ha)]

theorem splitAmp_append (x rest : Str) (hx : ∀ c ∈ x, ¬(c = '&')) :
    splitAmp (x ++ '&' :: rest) = x :: splitAmp rest := by
  induction x with
  | nil => simp [splitAmp]
  | cons c t ih =>
    have hc : ¬(c = '&') := hx c (List.mem_cons_self _ _)
    simp only [List.cons_append, splitAmp, hc, if_false, List.append_eq]
    rw [ih fun a ha => hx a (List.mem_cons_of_mem _ ha)]

theorem splitAmp_joinAmp : ∀ pcs : List Str,
    (∀ p ∈ pcs, p ≠ [] ∧ ∀ c ∈ p, ¬(c = '&')) → pcs ≠ [] →
    splitAmp (joinAmp pcs) = pcs := by
  intro pcs
  induction pcs with
  | nil => intro _ h; exact absurd rfl h
  | cons x xs ih =>
    intro hall _
    cases xs with
    | nil =>
      show splitAmp (x ++ tailAmp []) = [x]
      rw [show tailAmp [] = [] from rfl, List.append_nil]
      exact splitAmp_free x (hall x (List.mem_cons_self _ _)).2
    | cons y ys =>
      show splitAmp (x ++ tailAmp (y :: ys)) = x :: y :: ys
      rw [show tailAmp (y :: ys) = '&' :: (y ++ tailAmp ys) from rfl]
      rw [splitAmp_append x _ (hall x (List.mem_cons_self _ _)).2]
      have := ih (fun p hp => hall p (List.mem_cons_of_mem _ hp)) (by simp)
      rw [show joinAmp (y :: ys) = y ++ tailAmp ys from rfl] at this
      rw [this]

theorem encodeStr_mem {s : Str} {x : Char} (hx : x ∈ encodeStr s) :
    ∃ c ∈ s, x ∈ encodeChar c := by
  induction s with
  | nil => simp [encodeStr] at hx
  | cons c t ih =>
    simp only [encodeStr] at hx
    rcases List.mem_append.mp hx with h | h
    · exact ⟨c, List.mem_cons_self _ _, h⟩
    · obtain ⟨c2, hc2, hxc⟩ := ih h
      exact ⟨c2, List.mem_cons_of_mem _ hc2, hxc⟩

theorem encodeStr_safe {s : Str} {x : Char} (hx : x ∈ encodeStr s) :
    ¬(x = '&') ∧ ¬(x = '=') ∧ ¬(x = '#') ∧ ¬(x = '?') := by
  obtain ⟨c, _, hxc⟩ := encodeStr_mem hx
  exact encodeChar_safe c x hxc

/-- Characters of a serialized query: never `&`-free structurally relevant
outside the separators, and never `#` or `?`. -/
theorem serializeQuery_safe {l : List (Str × Str)} {x : Char}
    (hx : x ∈ serializeQuery l) : ¬(x = '#') ∧ ¬(x = '?') := by
  induction l with
  | nil => simp [serializeQuery, joinAmp] at hx
  | cons p ps ih =>
    simp only [serializeQuery, List.map_cons, joinAmp] at hx
    rcases List.mem_append.mp hx with h | h
    · rcases List.mem_append.mp h with h2 | h2
      · have := encodeStr_safe h2
        exact ⟨this.2.2.1, this.2.2.2⟩
      · rcases List.mem_cons.mp h2 with h3 | h3
        · subst h3; exact ⟨by decide, by decide⟩
        · have := encodeStr_safe h3
          exact ⟨this.2.2.1, this.2.2.2⟩
    · -- inside tailAmp of the mapped rest
      have haux : ∀ qs : List (Str × Str), x ∈ tailAmp (qs.map fun p =>
          encodeStr p.1 ++ '=' :: encodeStr p.2) → ¬(x = '#') ∧ ¬(x = '?') := by
        intro qs
        induction qs with
        | nil => intro hq; simp [tailAmp] at hq
        | cons q qs ihq =>
          intro hq
          simp only [List.map_cons, tailAmp] at hq
          rcases List.mem_cons.mp hq with h3 | h3
          · subst h3; exact ⟨by decide, by decide⟩
          · rcases List.mem_append.mp h3 with h4 | h4
            · rcases List.mem_append.mp h4 with h5 | h5
              · have := encodeStr_safe h5
                exact ⟨this.2.2.1, this.2.2.2⟩
              · rcases List.mem_cons.mp h5 with h6 | h6
                · subst h6; exact ⟨by decide, by decide⟩
                · have := encodeStr_safe h6
                  exact ⟨this.2.2.1, this.2.2.2⟩
            · exact ihq h4
      exact haux ps h

/-- Parsing a serialized `URLSearchParams` list recovers it exactly. -/
theorem parseQuery_serializeQuery (l : List (Str × Str)) :
    parseQuery (serializeQuery l) = l := by
  cases l with
  | nil => simp [serializeQuery, joinAmp, parseQuery, splitAmp]
  | cons p ps =>
    have hpieces : ∀ q ∈ (p :: ps).map (fun p => encodeStr p.1 ++ '=' :: encodeStr p.2),
        q ≠ [] ∧ ∀ c ∈ q, ¬(c = '&') := by
      intro q hq
      obtain ⟨e, _, he⟩ := List.mem_map.mp hq
      subst he
      refine ⟨by simp, ?_⟩
      intro c hc
      rcases List.mem_append.mp hc with h | h
      · exact (encodeStr_safe h).1
      · rcases List.mem_cons.mp h with h2 | h2
        · subst h2; decide
        · exact (encodeStr_safe h2).1
    unfold parseQuery serializeQuery
    rw [splitAmp_joinAmp _ hpieces (by simp)]
    have hkeep : ((p :: ps).map fun p => encodeStr p.1 ++ '=' :: encodeStr p.2).filter
        (fun seg => !seg.isEmpty) =
        (p :: ps).map fun p => encodeStr p.1 ++ '=' :: encodeStr p.2 := by
      rw [List.filter_eq_self]
      intro q hq
      have := (hpieces q hq).1
      simpa [List.isEmpty_iff] using this
    rw [hkeep, List.map_map]
    have hconv : ∀ e : Str × Str,
        ((fun seg : Str =>
            let sp := splitFirst '=' seg
            (decodeStr sp.1, decodeStr (sp.2.getD []))) ∘
          fun p => encodeStr p.1 ++ '=' :: encodeStr p.2) e = e := by
      intro e
      simp only [Function.comp]
      rw [splitFirst_append _ _ (fun c hc => (encodeStr_safe hc).2.1)]
      simp [decodeStr_encodeStr_nil]
    rw [List.map_congr_left fun e _ => hconv e]
    simp

/-- Number of entries of an association list carrying a given name. -/
def cntName (l : List (Str × Str)) (n : Str) : Nat :=
  l.countP fun e => decide (e.1 = n)

/-- Name `n` is fully sanitized in `l`: exactly one entry carries it and that
entry's value is `[REDACTED]`. -/
def sanOK (l : List (Str × Str)) (n : Str) : Prop :=
  cntName l n = 1 ∧ ∀ e ∈ l, e.1 = n → e.2 = REDACTED

theorem cntName_filter_self (t : List (Str × Str)) (n : Str) :
    cntName (t.filter fun p => !decide (p.1 = n)) n = 0 := by
  induction t with
  | nil => rfl
  | cons e t ih =>
    rw [List.filter_cons]
    by_cases he : e.1 = n
    · rw [if_neg (by simp [he])]
      exact ih
    · rw [if_pos (by simp [he])]
      simp only [cntName, List.countP_cons] at ih ⊢
      simp [he, ih]

theorem cntName_filter_other (t : List (Str × Str)) (n m : Str) (hnm : ¬(m = n)) :
    cntName (t.filter fun p => !decide (p.1 = n)) m = cntName t m := by
  induction t with
  | nil => rfl
  | cons e t ih =>
    rw [List.filter_cons]
    by_cases he : e.1 = n
    · have hem : ¬(e.1 = m) := by rw [he]; intro h; exact hnm h.symm
      rw [if_neg (by simp [he])]
      simp only [cntName, List.countP_cons] at ih ⊢
      simp [hem, ih]
    · rw [if_pos (by simp [he])]
      simp only [cntName, List.countP_cons] at ih ⊢
      omega

theorem mem_filter_name {t : List (Str × Str)} {e : Str × Str} {n : Str}
    (h : e ∈ t.filter fun p => !decide (p.1 = n)) : e ∈ t ∧ ¬(e.1 = n) := by
  have := List.mem_filter.mp h
  exact ⟨this.1, by simpa using this.2⟩

theorem setParam_sanOK (l : List (Str × Str)) (n : Str) :
    sanOK (setParam l n REDACTED) n := by
  induction l with
  | nil =>
    refine ⟨by simp [setParam, cntName, List.countP_cons], ?_⟩
    intro e he hn
    simp [setParam] at he
    rw [he]
  | cons p t ih =>
    obtain ⟨m, w⟩ := p
    by_cases hm : m = n
    · simp only [setParam, hm, if_pos]
      refine ⟨?_, ?_⟩
      · have hz := cntName_filter_self t n
        simp only [cntName, List.countP_cons] at hz ⊢
        simp [hz]
      · intro e he hn
        rcases List.mem_cons.mp he with h | h
        · rw [h]
        · exact absurd hn (mem_filter_name h).2
    · simp only [setParam, hm, if_false]
      refine ⟨?_, ?_⟩
      · simp only [cntName, List.countP_cons]
        have h1 := ih.1
        simp only [cntName] at h1
        simp [hm, h1]
      · intro e he hn
        rcases List.mem_cons.mp he with h | h
        · rw [h] at hn
          exact absurd hn hm
        · exact ih.2 e h hn

theorem setParam_mem {l : List (Str × Str)} {n v : Str} {e : Str × Str}
    (h : e ∈ setParam l n v) : e = (n, v) ∨ (e ∈ l ∧ ¬(e.1 = n)) := by
  induction l with
  | nil =>
    simp [setParam] at h
    exact Or.inl h
  | cons p t ih =>
    obtain ⟨m, w⟩ := p
    by_cases hm : m = n
    · simp only [setParam, hm, if_pos] at h
      rcases List.mem_cons.mp h with h2 | h2
      · exact Or.inl h2
      · have := mem_filter_name h2
        exact Or.inr ⟨List.mem_cons_of_mem _ this.1, this.2⟩
    · simp only [setParam, hm, if_false] at h
      rcases List.mem_cons.mp h with h2 | h2
      · subst h2
        exact Or.inr ⟨List.mem_cons_self _ _, hm⟩
      · rcases ih h2 with h3 | h3
        · exact Or.inl h3
        · exact Or.inr ⟨List.mem_cons_of_mem _ h3.1, h3.2⟩

theorem setParam_other_cnt (l : List (Str × Str)) (n v m : Str) (hnm : ¬(m = n)) :
    cntName (setParam l n v) m = cntName l m := by
  induction l with
  | nil =>
    simp only [setParam, cntName, List.countP_cons, List.countP_nil]
    simp [show ¬(n = m) from fun h => hnm h.symm]
  | cons p t ih =>
    obtain ⟨a, w⟩ := p
    by_cases ha : a = n
    · simp only [setParam, ha, if_pos]
      have ham : ¬(a = m) := by rw [ha]; intro h; exact hnm h.symm
      have hfo := cntName_filter_other t n m hnm
      simp only [cntName, List.countP_cons] at hfo ⊢
      rw [hfo]
      try simp [ha]
    · simp only [setParam, ha, if_false]
      simp only [cntName, List.countP_cons] at ih ⊢
      omega

theorem setParam_preserves_sanOK {l : List (Str × Str)} {n v m : Str}
    (hnm : ¬(m = n)) (h : sanOK l m) : sanOK (setParam l n v) m := by
  refine ⟨by rw [setParam_other_cnt l n v m hnm]; exact h.1, ?_⟩
  intro e he hm
  rcases setParam_mem he with h2 | h2
  · rw [h2] at hm
    simp at hm
    exact absurd hm.symm hnm
  · exact h.2 e h2.1 hm

theorem filter_of_cnt_zero {t : List (Str × Str)} {n : Str} (h : cntName t n = 0) :
    t.filter (fun p => !decide (p.1 = n)) = t := by
  rw [List.filter_eq_self]
  intro e he
  simp only [cntName] at h
  have h0 := List.countP_eq_zero.mp h e he
  simpa using h0

theorem setParam_id {l : List (Str × Str)} {n v : Str}
    (h1 : cntName l n = 1) (h2 : ∀ e ∈ l, e.1 = n → e.2 = v) : setParam l n v = l := by
  induction l with
  | nil => simp [cntName] at h1
  | cons p t ih =>
    obtain ⟨m, w⟩ := p
    by_cases hm : m = n
    · simp only [setParam, hm, if_pos]
      have hcnt0 : cntName t n = 0 := by
        simp only [cntName, List.countP_cons] at h1
        simp [hm] at h1
        simpa [cntName] using h1
      rw [filter_of_cnt_zero hcnt0]
      have hw : w = v := h2 (m, w) (List.mem_cons_self _ _) hm
      rw [← hm, hw]
    · simp only [setParam, hm, if_false]
      have h1' : cntName t n = 1 := by
        simp only [cntName, List.countP_cons] at h1
        simpa [cntName, hm] using h1
      rw [ih h1' fun e he hn => h2 e (List.mem_cons_of_mem _ he) hn]

theorem setParam_id_of_sanOK {l : List (Str × Str)} {n : Str} (h : sanOK l n) :
    setParam l n REDACTED = l :=
  setParam_id h.1 h.2

/-- After one pass of the sanitizing loop, every sensitive-named entry of the
resulting parameter list is unique and redacted. -/
theorem sanLoop_inv : ∀ (orig params : List (Str × Str)) (m : Bool),
    (∀ e ∈ params, isSensitiveParam e.1 = true →
      e.1 ∈ orig.map Prod.fst ∨ sanOK params e.1) →
    ∀ e ∈ (sanParamsLoop orig params m).1, isSensitiveParam e.1 = true →
      sanOK (sanParamsLoop orig params m).1 e.1 := by
  intro orig
  induction orig with
  | nil =>
    intro params m h e he hsens
    rcases h e he hsens with h2 | h2
    · simp at h2
    · exact h2
  | cons p rest ih =>
    intro params m h
    obtain ⟨n, v⟩ := p
    by_cases hs : isSensitiveParam n = true
    · rw [show sanParamsLoop ((n, v) :: rest) params m =
          sanParamsLoop rest (setParam params n REDACTED) true from by
        simp [sanParamsLoop, hs]]
      apply ih
      intro e he hsens
      rcases setParam_mem he with h2 | h2
      · subst h2
        exact Or.inr (setParam_sanOK params n)
      · rcases h e h2.1 hsens with h3 | h3
        · simp only [List.map_cons, List.mem_cons] at h3
          rcases h3 with h4 | h4
          · exact absurd h4 h2.2
          · exact Or.inl h4
        · exact Or.inr (setParam_preserves_sanOK h2.2 h3)
    · rw [show sanParamsLoop ((n, v) :: rest) params m = sanParamsLoop rest params m from by
        simp [sanParamsLoop, hs]]
      apply ih
      intro e he hsens
      rcases h e he hsens with h3 | h3
      · simp only [List.map_cons, List.mem_cons] at h3
        rcases h3 with h4 | h4
        · rw [h4] at hsens
          exact absurd hsens hs
        · exact Or.inl h4
      · exact Or.inr h3

/-- The sanitizing loop does not change a parameter list in which every
sensitive name is already unique and redacted. -/
theorem sanLoop_fixed : ∀ (orig p : List (Str × Str)) (m : Bool),
    (∀ e ∈ orig, isSensitiveParam e.1 = true → sanOK p e.1) →
    (sanParamsLoop orig p m).1 = p := by
  intro orig
  induction orig with
  | nil => intro p m _; rfl
  | cons q rest ih =>
    intro p m h
    obtain ⟨n, v⟩ := q
    by_cases hs : isSensitiveParam n = true
    · rw [show sanParamsLoop ((n, v) :: rest) p m =
          sanParamsLoop rest (setParam p n REDACTED) true from by
        simp [sanParamsLoop, hs]]
      rw [setParam_id_of_sanOK (h (n, v) (List.mem_cons_self _ _) hs)]
      exact ih p true fun e he hsens => h e (List.mem_cons_of_mem _ he) hsens
    · rw [show sanParamsLoop ((n, v) :: rest) p m = sanParamsLoop rest p m from by
        simp [sanParamsLoop, hs]]
      exact ih p m fun e he hsens => h e (List.mem_cons_of_mem _ he) hsens

/-- Running the sanitizing loop a second time on its own output changes
nothing. -/
theorem sanLoop_stable (l : List (Str × Str)) (m : Bool) :
    (sanParamsLoop (sanParamsLoop l l false).1 (sanParamsLoop l l false).1 m).1 =
      (sanParamsLoop l l false).1 := by
  have hinv := sanLoop_inv l l false fun e he _ =>
    Or.inl (List.mem_map.mpr ⟨e, he, rfl⟩)
  exact sanLoop_fixed _ _ m fun e he hsens => hinv e he hsens

/-- Lists whose head (if any) is neither alphabetic nor `:`. -/
def headNAC : Str → Prop
  | [] => True
  | c :: _ => c.isAlpha = false ∧ ¬(c = ':')

theorem schemeRest_append_congr :
    ∀ (t X Y : Str), headNAC X → headNAC Y → schemeRest (t ++ X) = schemeRest (t ++ Y) := by
  intro t
  induction t with
  | nil =>
    intro X Y hX hY
    have hs : ∀ Z : Str, headNAC Z → schemeRest Z = false := by
      intro Z hZ
      cases Z with
      | nil => rfl
      | cons c u =>
        obtain ⟨h1, h2⟩ := hZ
        simp [schemeRest, h1, h2]
    simp [hs X hX, hs Y hY]
  | cons c u ih =>
    intro X Y hX hY
    by_cases hc : c = ':'
    · simp [schemeRest, hc]
    · by_cases ha : c.isAlpha = true
      · simp only [List.cons_append, schemeRest, hc, if_false, ha, if_true]
        exact ih X Y hX hY
      · simp [schemeRest, hc, show c.isAlpha = false from by simpa using ha]

theorem validScheme_append_congr (t X Y : Str) (hX : headNAC X) (hY : headNAC Y) :
    validScheme (t ++ X) = validScheme (t ++ Y) := by
  cases t with
  | nil =>
    have hs : ∀ Z : Str, headNAC Z → validScheme Z = false := by
      intro Z hZ
      cases Z with
      | nil => rfl
      | cons c u =>
        obtain ⟨h1, h2⟩ := hZ
        simp [validScheme, h1]
    simp [hs X hX, hs Y hY]
  | cons c u =>
    by_cases ha : c.isAlpha = true
    · simp only [List.cons_append, validScheme, ha, if_true]
      exact schemeRest_append_congr u X Y hX hY
    · simp only [List.cons_append, validScheme,
        show c.isAlpha = false from by simpa using ha, Bool.false_eq_true]
      simp

theorem splitFirst_decomp (sep : Char) : ∀ s : Str,
    s = (splitFirst sep s).1 ++
      (match (splitFirst sep s).2 with
       | some t => sep :: t
       | none => []) := by
  intro s
  induction s with
  | nil => rfl
  | cons c t ih =>
    by_cases hc : c = sep
    · simp [splitFirst, hc]
    · simp only [splitFirst, hc, if_false]
      conv_lhs => rw [ih]
      rfl

/-- `sanitizeUrl` is idempotent. -/
theorem sanitizeUrl_idem (url : Str) (b : Bool) :
    sanitizeUrl (sanitizeUrl url b) b = sanitizeUrl url b := by
  cases b with
  | false =>
    have h : ∀ s : Str, sanitizeUrl s false = s := fun s => by simp [sanitizeUrl]
    rw [h, h]
  | true =>
    by_cases hne : url.isEmpty
    · have hout : sanitizeUrl url true = url := by simp [sanitizeUrl, hne]
      rw [hout]
      exact hout
    · cases hp : parseUrl url with
      | none =>
        have hout : sanitizeUrl url true = url := by simp [sanitizeUrl, hne, hp]
        rw [hout]
        exact hout
      | some u =>
        have hvs : validScheme url = true := by
          by_contra hv
          simp [parseUrl, hv] at hp
        have hu : u = ⟨(splitFirst '?' (splitFirst '#' url).1).1,
            (splitFirst '?' (splitFirst '#' url).1).2, (splitFirst '#' url).2⟩ := by
          simp [parseUrl, hvs] at hp
          exact hp.symm
        by_cases hflag : (sanParamsLoop (parseQuery (u.query.getD []))
            (parseQuery (u.query.getD [])) false).2 = true
        · -- the interesting branch: the URL was rewritten
          have hout : sanitizeUrl url true =
              serializeUrl ⟨u.base, some (serializeQuery
                (sanParamsLoop (parseQuery (u.query.getD []))
                  (parseQuery (u.query.getD [])) false).1), u.frag⟩ := by
            simp [sanitizeUrl, hne, hp, hflag]
          set out := (sanParamsLoop (parseQuery (u.query.getD []))
            (parseQuery (u.query.getD [])) false).1 with hdefout
          set q2 := serializeQuery out with hdefq2
          set url2 := serializeUrl ⟨u.base, some q2, u.frag⟩ with hdefurl2
          have hbase_noq : ∀ c ∈ u.base, ¬(c = '?') := by
            rw [hu]
            exact fun c hc => splitFirst_fst_no_sep _ c hc
          have hbase_nof : ∀ c ∈ u.base, ¬(c = '#') := by
            rw [hu]
            exact fun c hc =>
              splitFirst_fst_no_sep url c (splitFirst_fst_mem _ c hc)
          have hpre_noq : ∀ c ∈ u.base ++ '?' :: q2, ¬(c = '#') := by
            intro c hc
            rcases List.mem_append.mp hc with h1 | h1
            · exact hbase_nof c h1
            · rcases List.mem_cons.mp h1 with h2 | h2
              · subst h2; decide
              · exact (serializeQuery_safe h2).1
          have hurl2 : url2 = u.base ++
              ('?' :: (q2 ++
                (match u.frag with
                 | some f => '#' :: f
                 | none => []))) := by
            rw [hdefurl2]
            simp [serializeUrl]
          have hvs2 : validScheme url2 = true := by
            rw [hurl2]
            have hdec : url = u.base ++
                ((match u.query with
                  | some t => '?' :: t
                  | none => []) ++
                 (match u.frag with
                  | some t => '#' :: t
                  | none => [])) := by
              conv_lhs => rw [splitFirst_decomp '#' url]
              rw [hu]
              conv_lhs => rw [splitFirst_decomp '?' (splitFirst '#' url).1]
              simp [List.append_assoc]
            have hX : headNAC
                ((match u.query with
                  | some t => '?' :: t
                  | none => []) ++
                 (match u.frag with
                  | some t => '#' :: t
                  | none => [])) := by
              cases u.query <;> cases u.frag <;> simp [headNAC]
            have hY : headNAC
                ('?' :: (q2 ++
                  (match u.frag with
                   | some f => '#' :: f
                   | none => []))) := by
              refine ⟨by decide, by decide⟩
            rw [validScheme_append_congr u.base _ _ hY hX, ← hdec]
            exact hvs
          have hpu2 : parseUrl url2 = some ⟨u.base, some q2, u.frag⟩ := by
            unfold parseUrl
            rw [hvs2, if_pos rfl]
            have hsp1 : splitFirst '#' url2 = (u.base ++ '?' :: q2, u.frag) := by
              cases hf : u.frag with
              | some f =>
                rw [hurl2, hf]
                rw [show u.base ++ '?' :: (q2 ++ '#' :: f) =
                    (u.base ++ '?' :: q2) ++ '#' :: f from by simp]
                exact splitFirst_append _ _ hpre_noq
              | none =>
                rw [hurl2, hf]
                rw [show u.base ++ '?' :: (q2 ++ []) = u.base ++ '?' :: q2 from by simp]
                exact splitFirst_free _ hpre_noq
            rw [hsp1]
            show some (ParsedUrl.mk (splitFirst '?' (u.base ++ '?' :: q2)).1
                (splitFirst '?' (u.base ++ '?' :: q2)).2 u.frag) =
              some ⟨u.base, some q2, u.frag⟩
            rw [show splitFirst '?' (u.base ++ '?' :: q2) = (u.base, some q2) from
              splitFirst_append _ _ hbase_noq]
          have hq2parse : parseQuery q2 = out := parseQuery_serializeQuery out
          have hstable : (sanParamsLoop out out false).1 = out := by
            rw [hdefout]
            exact sanLoop_stable _ false
          have hempty2 : url2.isEmpty = false := by
            rw [hurl2]
            cases u.base <;> simp
          have hout2 : sanitizeUrl url2 true = url2 := by
            unfold sanitizeUrl
            rw [hempty2]
            simp only [Bool.not_true, Bool.or_false, Bool.false_eq_true, if_false]
            rw [hpu2]
            simp only [Option.getD_some]
            rw [hq2parse]
            by_cases hflag2 : (sanParamsLoop out out false).2 = true
            · rw [if_pos hflag2, hstable]
            · rw [if_neg hflag2]
          rw [hout]
          exact hout2
        · have hout : sanitizeUrl url true = url := by
            simp [sanitizeUrl, hne, hp, hflag]
          rw [hout]
          exact hout

/-! ### Model of the regex redaction pass for non-JSON request bodies

The source applies, for each sensitive pattern `p`, the regex
`(p[=:]\s*)([^&\s]+)` case-insensitively and globally, replacing the captured
value with `[REDACTED]`.  The scan below mirrors the left-to-right,
non-overlapping, greedy semantics of `String.prototype.replace`. -/

/-- Model of the regex class `\s` (ASCII range). -/
def isWsRe (c : Char) : Bool :=
  c = ' ' || c = '\t' || c = '\n' || c = '\r' || c = '\x0b' || c = '\x0c'

/-- Case-insensitive literal prefix match; returns the matched original
characters and the remainder. -/
def ciPrefix : Str → Str → Option (Str × Str)
  | [], s => some ([], s)
  | _ :: _, [] => none
  | pc :: pt, c :: t =>
    if c.toLower = pc.toLower then
      (ciPrefix pt t).map fun q => (c :: q.1, q.2)
    else none

/-- Try the pattern `(p[=:]\s*)([^&\s]+)` at the start of `s`; on success
return the text of the first capture group (kept by the replacement) and the
remainder after the matched value. -/
def matchPatAt (p : Str) (s : Str) : Option (Str × Str) :=
  match ciPrefix p s with
  | none => none
  | some (kept, r) =>
    match r with
    | [] => none
    | sep :: r1 =>
      if sep = '=' || sep = ':' then
        let wsrun := r1.takeWhile isWsRe
        let r2 := r1.drop wsrun.length
        let value := r2.takeWhile fun c => !(c = '&') && !isWsRe c
        if value.isEmpty then none
        else some (kept ++ sep :: wsrun, r2.drop value.length)
      else none

theorem ciPrefix_length {p s : Str} {k r : Str} (h : ciPrefix p s = some (k, r)) :
    r.length + p.length = s.length := by
  induction p generalizing s k r with
  | nil =>
    simp [ciPrefix] at h
    rw [← h.2]
    simp
  | cons pc pt ih =>
    cases s with
    | nil => simp [ciPrefix] at h
    | cons c t =>
      simp only [ciPrefix] at h
      split at h
      · cases hq : ciPrefix pt t with
        | none => rw [hq] at h; simp at h
        | some q =>
          rw [hq] at h
          simp only [Option.map_some'] at h
          cases h
          have := ih hq
          simp only [List.length_cons]
          omega
      · simp at h

theorem takeWhile_len_le (q : Char → Bool) (l : Str) : (l.takeWhile q).length ≤ l.length := by
  induction l with
  | nil => simp
  | cons a t ih =>
    rw [List.takeWhile_cons]
    split
    · simpa using ih
    · simp

theorem matchPatAt_consumes {p s : Str} {k r : Str} (h : matchPatAt p s = some (k, r)) :
    r.length < s.length := by
  unfold matchPatAt at h
  cases hc : ciPrefix p s with
  | none => rw [hc] at h; simp at h
  | some pr =>
    obtain ⟨kept, r0⟩ := pr
    rw [hc] at h
    have hlen := ciPrefix_length hc
    cases r0 with
    | nil => simp at h
    | cons sep r1 =>
      simp only at h
      split at h
      · split at h
        · simp at h
        · rename_i hval
          simp only [Option.some.injEq, Prod.mk.injEq] at h
          have hr : r = (r1.drop (r1.takeWhile isWsRe).length).drop
              ((r1.drop (r1.takeWhile isWsRe).length).takeWhile
                fun c => !(c = '&') && !isWsRe c).length := by
            rw [← h.2]
          have hvne : ((r1.drop (r1.takeWhile isWsRe).length).takeWhile
              fun c => !(c = '&') && !isWsRe c).length ≥ 1 := by
            rcases hemp : (r1.drop (r1.takeWhile isWsRe).length).takeWhile
                (fun c => !(c = '&') && !isWsRe c) with _ | ⟨a, u⟩
            · rw [hemp] at hval
              simp at hval
            · simp [hemp]
          have hd1 : (r1.drop (r1.takeWhile isWsRe).length).length ≤ r1.length := by
            simp [List.length_drop]
          have htw : ((r1.drop (r1.takeWhile isWsRe).length).takeWhile
              fun c => !(c = '&') && !isWsRe c).length ≤
              (r1.drop (r1.takeWhile isWsRe).length).length :=
            takeWhile_len_le _ _
          rw [hr]
          simp only [List.length_drop]
          simp only [List.length_cons] at hlen
          omega
      · simp at h

/-- One global pass of `text.replace(regex, replacement)` for the pattern of
a single sensitive word. -/
def replacePatF (p : Str) : Nat → Str → Str
  | _, [] => []
  | 0, s => s
  | fuel + 1, c :: t =>
    match matchPatAt p (c :: t) with
    | some q => q.1 ++ (REDACTED ++ replacePatF p fuel q.2)
    | none => c :: replacePatF p fuel t

def replacePat (p : Str) (s : Str) : Str := replacePatF p s.length s

/-- The sequential application of all sensitive patterns to a non-JSON body,
as the `for (const pattern of SENSITIVE_PATTERNS)` loop does. -/
def redactText (t : Str) : Str :=
  SENSITIVE_PATTERNS.foldl (fun acc p => replacePat p acc) t

/-- The `postData.text` treatment of `sanitizeEntry`: JSON bodies are parsed,
recursively redacted and re-serialized; non-JSON bodies get the per-pattern
regex replacement. -/
def sanitizePostDataText (t : Str) : Str :=
  match parseJson t with
  | some j => strV (sanitizeObject j)
  | none => redactText t

/-! ### The extended HAR document model and `sanitizeEntry` / `sanitizeHar` -/

/-- HAR `postData`. -/
structure PostData where
  mimeType : Str
  text : Str
deriving DecidableEq, Repr

/-- HAR request object as built by `saveHttpEntry` in the capture module. -/
structure HarRequest where
  method : Str
  url : Str
  httpVersion : Str
  headers : List NameValue
  queryString : List NameValue
  cookies : List NameValue
  headersSize : Int
  bodySize : Int
  postData : Option PostData
deriving DecidableEq, Repr

/-- HAR response content object. -/
structure HarContent where
  size : Int
  mimeType : Str
  text : Option Str
  encoding : Option Str
deriving DecidableEq, Repr

/-- HAR response object. -/
structure HarResponse where
  status : Int
  statusText : Str
  httpVersion : Str
  headers : List NameValue
  cookies : List NameValue
  content : HarContent
  redirectURL : Str
  headersSize : Int
  bodySize : Int
deriving DecidableEq, Repr

/-- One entry of `log.entries`; `tabId`, `hostname` and `resourceType` model
the `_tabId`, `_hostname` and `_resourceType` extension fields. -/
structure HarEntry where
  startedDateTime : Str
  time : Int
  request : Option HarRequest
  response : Option HarResponse
  tabId : Int
  hostname : Str
  resourceType : Str
deriving DecidableEq, Repr

/-- One element of the `_webSocketMessages` sibling array. -/
structure WsMessage where
  timestamp : Str
  tabId : Int
  url : Str
  connectionId : Str
  type : Str
  opcode : Int
  data : Str
  size : Int
deriving DecidableEq, Repr

/-- One element of the `_serverSentEvents` sibling array. -/
structure SseEvent where
  timestamp : Str
  tabId : Int
  url : Str
  event : Str
  data : Str
  id : Str
deriving DecidableEq, Repr

/-- The `log` object of the extended HAR document. -/
structure HarLog where
  version : Str
  entries : List HarEntry
  webSocketMessages : List WsMessage
  serverSentEvents : List SseEvent
deriving DecidableEq, Repr

/-- The extended HAR document. -/
structure Har where
  log : HarLog
deriving DecidableEq, Repr

/-- The option object accepted by `sanitizeHar` (`sanitizeUrlParams`,
`customPatterns`). -/
structure SanOptions where
  sanitizeUrlParams : Bool
  customPatterns : List Str
deriving DecidableEq, Repr

/-- `sanitizeEntry` from `lib/sanitizer.js`. -/
def sanitizeEntry (entry : HarEntry) (options : SanOptions) : HarEntry :=
  let entry1 :=
    match entry.request with
    | none => entry
    | some req =>
      let req1 := { req with
        url := sanitizeUrl req.url options.sanitizeUrlParams,
        headers := sanitizeHeaders req.headers options.customPatterns,
        queryString := sanitizeQueryString req.queryString options.sanitizeUrlParams,
        cookies := [] }
      let req2 :=
        match req1.postData with
        | some pd =>
          if pd.text.isEmpty then req1
          else { req1 with postData := some { pd with text := sanitizePostDataText pd.text } }
        | none => req1
      { entry with request := some req2 }
  match entry1.response with
  | none => entry1
  | some resp =>
    { entry1 with response := some { resp with
        headers := sanitizeHeaders resp.headers options.customPatterns,
        cookies := [] } }

/-- The `_webSocketMessages` treatment of `sanitizeHar`. -/
def sanitizeWsMessage (msg : WsMessage) (options : SanOptions) : WsMessage :=
  let m1 := { msg with url := sanitizeUrl msg.url options.sanitizeUrlParams }
  if !msg.data.isEmpty && msg.opcode = 1 then
    match parseJson msg.data with
    | some j => { m1 with data := strV (sanitizeObject j) }
    | none => m1
  else m1

/-- The `_serverSentEvents` treatment of `sanitizeHar`. -/
def sanitizeSseEvent (ev : SseEvent) (options : SanOptions) : SseEvent :=
  let e1 := { ev with url := sanitizeUrl ev.url options.sanitizeUrlParams }
  if !ev.data.isEmpty then
    match parseJson ev.data with
    | some j => { e1 with data := strV (sanitizeObject j) }
    | none => e1
  else e1

/-- `sanitizeHar` from `lib/sanitizer.js`. -/
def sanitizeHar (har : Har) (options : SanOptions) : Har :=
  { log := { har.log with
      entries := har.log.entries.map fun e => sanitizeEntry e options,
      webSocketMessages := har.log.webSocketMessages.map fun m => sanitizeWsMessage m options,
      serverSentEvents := har.log.serverSentEvents.map fun ev => sanitizeSseEvent ev options } }

theorem strV_ne_nil {v : Json} (hwf : wfJ v = true) : strV v ≠ [] := by
  obtain ⟨c, t, hct, _⟩ := strV_cons v hwf
  rw [hct]
  simp

/-- Re-serialized sanitized JSON is parsed back to the sanitized value. -/
theorem parseJson_sanitized {t : Str} {j : Json} (h : parseJson t = some j) :
    parseJson (strV (sanitizeObject j)) = some (sanitizeObject j) :=
  parseJson_strV _ (wfJ_sanitizeObject _ (parseJson_wf t j h))

/-- On a JSON-parseable body the `postData.text` treatment is stable. -/
theorem sanitizePostDataText_stable {t : Str} {j : Json} (h : parseJson t = some j) :
    sanitizePostDataText (sanitizePostDataText t) = sanitizePostDataText t := by
  have h1 : sanitizePostDataText t = strV (sanitizeObject j) := by
    unfold sanitizePostDataText
    rw [h]
  rw [h1]
  unfold sanitizePostDataText
  rw [parseJson_sanitized h]
  show strV (sanitizeObject (sanitizeObject j)) = strV (sanitizeObject j)
  rw [sanitizeObject_idem]

theorem sanitizePostDataText_ne_nil {t : Str} {j : Json} (h : parseJson t = some j) :
    sanitizePostDataText t ≠ [] := by
  unfold sanitizePostDataText
  rw [h]
  exact strV_ne_nil (wfJ_sanitizeObject _ (parseJson_wf t j h))

theorem sanitizeWsMessage_idem (m : WsMessage) (o : SanOptions) :
    sanitizeWsMessage (sanitizeWsMessage m o) o = sanitizeWsMessage m o := by
  unfold sanitizeWsMessage
  by_cases hc : (!m.data.isEmpty && m.opcode = 1) = true
  · rw [if_pos hc]
    cases hp : parseJson m.data with
    | none =>
      rw [if_pos (by simpa using hc)]
      rw [hp]
      simp [sanitizeUrl_idem]
    | some j =>
      have hwf := wfJ_sanitizeObject _ (parseJson_wf _ _ hp)
      have hcond : (!(strV (sanitizeObject j)).isEmpty && m.opcode = 1) = true := by
        simp only [Bool.and_eq_true] at hc ⊢
        refine ⟨?_, hc.2⟩
        simpa [List.isEmpty_iff] using strV_ne_nil hwf
      rw [if_pos (by simpa using hcond)]
      rw [parseJson_strV _ hwf]
      simp [sanitizeUrl_idem, sanitizeObject_idem]
  · rw [if_neg hc, if_neg (by simpa using hc)]
    simp [sanitizeUrl_idem]

theorem sanitizeSseEvent_idem (ev : SseEvent) (o : SanOptions) :
    sanitizeSseEvent (sanitizeSseEvent ev o) o = sanitizeSseEvent ev o := by
  unfold sanitizeSseEvent
  by_cases hc : (!ev.data.isEmpty) = true
  · rw [if_pos hc]
    cases hp : parseJson ev.data with
    | none =>
      rw [if_pos (by simpa using hc)]
      rw [hp]
      simp [sanitizeUrl_idem]
    | some j =>
      have hwf := wfJ_sanitizeObject _ (parseJson_wf _ _ hp)
      have hcond : (!(strV (sanitizeObject j)).isEmpty) = true := by
        simpa [List.isEmpty_iff] using strV_ne_nil hwf
      rw [if_pos (by simpa using hcond)]
      rw [parseJson_strV _ hwf]
      simp [sanitizeUrl_idem, sanitizeObject_idem]
  · rw [if_neg hc, if_neg (by simpa using hc)]
    simp [sanitizeUrl_idem]

/-- The entry's request body is absent, empty, or JSON-parseable; the
counterexample below shows the sanitizer is not stable without this. -/
def postDataStable (e : HarEntry) : Bool :=
  match e.request with
  | some req =>
    match req.postData with
    | some pd => pd.text.isEmpty || (parseJson pd.text).isSome
    | none => true
  | none => true

theorem sanitizeEntry_idem (e : HarEntry) (o : SanOptions) (hst : postDataStable e = true) :
    sanitizeEntry (sanitizeEntry e o) o = sanitizeEntry e o := by
  unfold sanitizeEntry
  cases hr : e.request with
  | none =>
    simp only [hr]
    cases hresp : e.response with
    | none => simp [hresp, hr]
    | some resp =>
      simp only [hresp]
      simp [hr, sanitizeHeaders_idem]
  | some req =>
    simp only [hr]
    cases hpd : req.postData with
    | none =>
      simp only [hpd]
      cases hresp : e.response with
      | none =>
        simp [hresp, sanitizeUrl_idem, sanitizeHeaders_idem, sanitizeQueryString_idem]
      | some resp =>
        simp [hresp, sanitizeUrl_idem, sanitizeHeaders_idem, sanitizeQueryString_idem]
    | some pd =>
      have hst1 : (match req.postData with
          | some pd => (pd.text.isEmpty || (parseJson pd.text).isSome)
          | none => true) = true := by
        unfold postDataStable at hst
        rw [hr] at hst
        exact hst
      rw [hpd] at hst1
      have hst2 : (pd.text.isEmpty || (parseJson pd.text).isSome) = true := hst1
      simp only [hpd]
      by_cases hemp : pd.text.isEmpty
      · rw [if_pos hemp]
        cases hresp : e.response with
        | none =>
          simp [hresp, hpd, hemp, sanitizeUrl_idem, sanitizeHeaders_idem,
            sanitizeQueryString_idem]
        | some resp =>
          simp [hresp, hpd, hemp, sanitizeUrl_idem, sanitizeHeaders_idem,
            sanitizeQueryString_idem]
      · simp only [hemp, Bool.false_or] at hst2
        obtain ⟨j, hj⟩ := Option.isSome_iff_exists.mp hst2
        rw [if_neg hemp]
        have hne2 : (sanitizePostDataText pd.text).isEmpty = false := by
          simpa [List.isEmpty_iff] using sanitizePostDataText_ne_nil hj
        cases hresp : e.response with
        | none =>
          simp [hresp, hne2, sanitizeUrl_idem, sanitizeHeaders_idem,
            sanitizeQueryString_idem, sanitizePostDataText_stable hj]
        | some resp =>
          simp [hresp, hne2, sanitizeUrl_idem, sanitizeHeaders_idem,
            sanitizeQueryString_idem, sanitizePostDataText_stable hj]

/-- A one-entry HAR whose `postData.text` is the non-JSON body
`"token=x\q " ` (invalid escape, trailing space): the first sanitizer pass
turns it into valid JSON, which the second pass then re-canonicalizes. -/
def cexC2Entry : HarEntry :=
  { startedDateTime := [], time := 0,
    request := some
      { method := "POST".data, url := [], httpVersion := [],
        headers := [], queryString := [], cookies := [], headersSize := 0,
        bodySize := 0,
        postData := some
          { mimeType := [],
            text := ['"', 't', 'o', 'k', 'e', 'n', '=', 'x', '\\', 'q', ' ', '"', ' '] } },
    response := none, tabId := 0, hostname := [], resourceType := [] }

def cexC2Har : Har :=
  { log :=
      { version := "1.2".data, entries := [cexC2Entry],
        webSocketMessages := [], serverSentEvents := [] } }

/-- Default options: URL-parameter sanitization on, no custom patterns. -/
def cexC2Opts : SanOptions := { sanitizeUrlParams := true, customPatterns := [] }

/-- A one-entry HAR whose `postData.text` is the JSON body `{}`. -/
def witC2Entry : HarEntry :=
  { startedDateTime := [], time := 0,
    request := some
      { method := "POST".data, url := [], httpVersion := [],
        headers := [], queryString := [], cookies := [], headersSize := 0,
        bodySize := 0,
        postData := some
          { mimeType := [], text := ['{', '}'] } },
    response := none, tabId := 0, hostname := [], resourceType := [] }

def witC2Har : Har :=
  { log :=
      { version := "1.2".data, entries := [witC2Entry],
        webSocketMessages := [], serverSentEvents := [] } }

/-- C2 (amended): `sanitizeHar` is idempotent on every HAR document whose
entries each have an absent, empty, or JSON-parseable `postData.text`
(WS/SSE data, headers, cookies, URLs and query strings need no side
condition). -/
theorem C2_sanitizeHar_idempotent (har : Har) (o : SanOptions)
    (hst : ∀ e ∈ har.log.entries, postDataStable e = true) :
    sanitizeHar (sanitizeHar har o) o = sanitizeHar har o := by
  unfold sanitizeHar
  simp only [List.map_map, Har.mk.injEq, HarLog.mk.injEq, Function.comp]
  refine ⟨trivial, ?_, ?_, ?_⟩
  · exact List.map_congr_left fun e hme => sanitizeEntry_idem e o (hst e hme)
  · exact List.map_congr_left fun m _ => sanitizeWsMessage_idem m o
  · exact List.map_congr_left fun ev _ => sanitizeSseEvent_idem ev o

/-- C2 witness: the amended theorem applied to a concrete one-entry HAR with
a JSON body. -/
theorem C2_sanitizeHar_idempotent_witness :
    (∀ e ∈ witC2Har.log.entries, postDataStable e = true) ∧
    sanitizeHar (sanitizeHar witC2Har cexC2Opts) cexC2Opts = sanitizeHar witC2Har cexC2Opts :=
  ⟨by decide, C2_sanitizeHar_idempotent witC2Har cexC2Opts (by decide)⟩

/-- The body after the first sanitizer pass: the regex pass rewrote the
non-JSON `"token=x\q " ` to `"token=[REDACTED] " ` — which is valid JSON
(a string with a trailing space outside it). -/
def cexT1 : Str := '"' :: ("token=[REDACTED] ".data ++ ['"', ' '])

/-- The body after the second sanitizer pass: re-serialization of the parsed
JSON string drops the trailing space. -/
def cexT2 : Str := '"' :: ("token=[REDACTED] ".data ++ ['"'])

/-- `cexC2Entry` after one sanitizer pass. -/
def cexC2Mid : HarEntry :=
  { startedDateTime := [], time := 0,
    request := some
      { method := "POST".data, url := [], httpVersion := [],
        headers := [], queryString := [], cookies := [], headersSize := 0,
        bodySize := 0,
        postData := some
          { mimeType := [], text := cexT1 } },
    response := none, tabId := 0, hostname := [], resourceType := [] }

/-- The `postData.text` of an entry, when present. -/
def postTextOf (e : HarEntry) : Option Str :=
  match e.request with
  | some r =>
    match r.postData with
    | some pd => some pd.text
    | none => none
  | none => none

theorem cexC2_second_pass : sanitizePostDataText cexT1 = cexT2 := by
  have hp : parseJson cexT1 = some (Json.str ("token=[REDACTED] ".data)) := by rfl
  unfold sanitizePostDataText
  rw [hp]
  show strV (sanitizeObject (Json.str ("token=[REDACTED] ".data))) = cexT2
  have h1 : sanitizeObject (Json.str ("token=[REDACTED] ".data))
      = Json.str ("token=[REDACTED] ".data) := by
    simp [sanitizeObject]
  rw [h1]
  have h2 : strV (Json.str ("token=[REDACTED] ".data))
      = '"' :: (escapeStr ("token=[REDACTED] ".data) ++ ['"']) := by
    simp [strV]
  rw [h2]
  decide

/-- C2 counterexample: on `cexC2Har` the sanitizer is not idempotent — the
first pass rewrites the non-JSON body `"token=x\q " ` to
`"token=[REDACTED] " ` by regex, which is valid JSON, so the second pass
parses and re-serializes it, dropping the trailing space. -/
theorem C2_sanitizeHar_idempotent_counterexample :
    sanitizeHar (sanitizeHar cexC2Har cexC2Opts) cexC2Opts ≠ sanitizeHar cexC2Har cexC2Opts := by
  intro h
  have h3 := congrArg (fun x => x.log.entries) h
  simp only [sanitizeHar, cexC2Har, List.map_cons, List.map_nil, List.cons.injEq,
    and_true] at h3
  have e1 : sanitizeEntry cexC2Entry cexC2Opts = cexC2Mid := by decide
  rw [e1] at h3
  have e2 : postTextOf (sanitizeEntry cexC2Mid cexC2Opts) = some (sanitizePostDataText cexT1) :=
    rfl
  have e3 : postTextOf cexC2Mid = some cexT1 := rfl
  have h4 := congrArg postTextOf h3
  rw [e2, e3] at h4
  have h5 : sanitizePostDataText cexT1 = cexT1 := Option.some.inj h4
  rw [cexC2_second_pass] at h5
  exact absurd h5 (by decide)

/-! ### C10: `sanitizeHar` preserves record counts, order, and all
non-sanitized fields -/

theorem sanitizeHeaders_names (hs : List NameValue) (cs : List Str) :
    (sanitizeHeaders hs cs).map (fun h => h.name) = hs.map (fun h => h.name) := by
  unfold sanitizeHeaders
  rw [List.map_map]
  apply List.map_congr_left
  intro h _
  by_cases hx : isSensitiveHeader h.name cs <;> simp [Function.comp, hx]

theorem sanitizeQueryString_names (qs : List NameValue) (b : Bool) :
    (sanitizeQueryString qs b).map (fun p => p.name) = qs.map (fun p => p.name) := by
  unfold sanitizeQueryString
  cases b with
  | false => simp
  | true =>
    simp only [Bool.not_true, Bool.false_eq_true, if_false, List.map_map]
    apply List.map_congr_left
    intro p _
    by_cases hx : isSensitiveParam p.name <;> simp [Function.comp, hx]

/-- The request fields the sanitizer must not change: everything except the
URL, header values, query-string values, the cookie list and
`postData.text` (header and parameter names, and the presence and
`mimeType` of `postData`, are kept). -/
structure ReqSkel where
  method : Str
  httpVersion : Str
  headerNames : List Str
  queryNames : List Str
  headersSize : Int
  bodySize : Int
  postMime : Option Str
deriving DecidableEq, Repr

def reqSkel (r : HarRequest) : ReqSkel :=
  { method := r.method, httpVersion := r.httpVersion,
    headerNames := r.headers.map fun h => h.name,
    queryNames := r.queryString.map fun p => p.name,
    headersSize := r.headersSize, bodySize := r.bodySize,
    postMime := r.postData.map fun pd => pd.mimeType }

/-- The response fields the sanitizer must not change: everything except
header values and the cookie list. -/
structure RespSkel where
  status : Int
  statusText : Str
  httpVersion : Str
  headerNames : List Str
  content : HarContent
  redirectURL : Str
  headersSize : Int
  bodySize : Int
deriving DecidableEq, Repr

def respSkel (r : HarResponse) : RespSkel :=
  { status := r.status, statusText := r.statusText, httpVersion := r.httpVersion,
    headerNames := r.headers.map fun h => h.name,
    content := r.content, redirectURL := r.redirectURL,
    headersSize := r.headersSize, bodySize := r.bodySize }

/-- The entry fields the sanitizer must not change. -/
structure EntrySkel where
  startedDateTime : Str
  time : Int
  request : Option ReqSkel
  response : Option RespSkel
  tabId : Int
  hostname : Str
  resourceType : Str
deriving DecidableEq, Repr

def entrySkel (e : HarEntry) : EntrySkel :=
  { startedDateTime := e.startedDateTime, time := e.time,
    request := e.request.map reqSkel, response := e.response.map respSkel,
    tabId := e.tabId, hostname := e.hostname, resourceType := e.resourceType }

/-- Everything of a WS message except its `url` and `data`. -/
def wsSkel (m : WsMessage) : Str × Int × Str × Str × Int × Int :=
  (m.timestamp, m.tabId, m.connectionId, m.type, m.opcode, m.size)

/-- Everything of an SSE event except its `url` and `data`. -/
def sseSkel (ev : SseEvent) : Str × Int × Str × Str :=
  (ev.timestamp, ev.tabId, ev.event, ev.id)

theorem entrySkel_sanitize (e : HarEntry) (o : SanOptions) :
    entrySkel (sanitizeEntry e o) = entrySkel e := by
  unfold sanitizeEntry
  cases hr : e.request with
  | none =>
    cases hresp : e.response with
    | none => simp [hresp]
    | some resp =>
      simp [hresp, entrySkel, respSkel, hr, sanitizeHeaders_names]
  | some req =>
    cases hpd : req.postData with
    | none =>
      cases hresp : e.response with
      | none =>
        simp [hresp, hpd, entrySkel, reqSkel, hr, sanitizeHeaders_names,
          sanitizeQueryString_names]
      | some resp =>
        simp [hresp, hpd, entrySkel, reqSkel, respSkel, hr, sanitizeHeaders_names,
          sanitizeQueryString_names]
    | some pd =>
      by_cases hemp : pd.text.isEmpty
      · cases hresp : e.response with
        | none =>
          simp [hresp, hpd, hemp, entrySkel, reqSkel, hr, sanitizeHeaders_names,
            sanitizeQueryString_names]
        | some resp =>
          simp [hresp, hpd, hemp, entrySkel, reqSkel, respSkel, hr,
            sanitizeHeaders_names, sanitizeQueryString_names]
      · cases hresp : e.response with
        | none =>
          simp [hresp, hpd, hemp, entrySkel, reqSkel, hr, sanitizeHeaders_names,
            sanitizeQueryString_names]
        | some resp =>
          simp [hresp, hpd, hemp, entrySkel, reqSkel, respSkel, hr,
            sanitizeHeaders_names, sanitizeQueryString_names]

theorem wsSkel_sanitize (m : WsMessage) (o : SanOptions) :
    wsSkel (sanitizeWsMessage m o) = wsSkel m := by
  unfold sanitizeWsMessage
  by_cases hc : (!m.data.isEmpty && m.opcode = 1) = true
  · rw [if_pos hc]
    cases hp : parseJson m.data <;> simp [wsSkel]
  · rw [if_neg hc]
    simp [wsSkel]

theorem sseSkel_sanitize (ev : SseEvent) (o : SanOptions) :
    sseSkel (sanitizeSseEvent ev o) = sseSkel ev := by
  unfold sanitizeSseEvent
  by_cases hc : (!ev.data.isEmpty) = true
  · rw [if_pos hc]
    cases hp : parseJson ev.data <;> simp [sseSkel]
  · rw [if_neg hc]
    simp [sseSkel]

/-- C10: `sanitizeHar` never drops or reorders records — the three record
lists keep their lengths, and position by position every record keeps all
its non-sanitized fields (start time, duration, tab id, hostname, resource
type, sizes, method, versions, header and parameter names, `postData`
presence and mime type, response status and content, WS connection id,
opcode and size, SSE event name and id); only the sanitized fields (URLs,
header values, query-string values, cookie lists, `postData.text`, WS/SSE
`data`) may change. -/
theorem C10_sanitizeHar_preserves_structure (har : Har) (o : SanOptions) :
    ((sanitizeHar har o).log.entries.length = har.log.entries.length ∧
      (sanitizeHar har o).log.webSocketMessages.length
        = har.log.webSocketMessages.length ∧
      (sanitizeHar har o).log.serverSentEvents.length
        = har.log.serverSentEvents.length) ∧
    ((sanitizeHar har o).log.entries.map entrySkel = har.log.entries.map entrySkel ∧
      (sanitizeHar har o).log.webSocketMessages.map wsSkel
        = har.log.webSocketMessages.map wsSkel ∧
      (sanitizeHar har o).log.serverSentEvents.map sseSkel
        = har.log.serverSentEvents.map sseSkel) := by
  unfold sanitizeHar
  simp only [List.length_map, List.map_map, Function.comp]
  refine ⟨⟨trivial, trivial, trivial⟩, ?_, ?_, ?_⟩
  · exact List.map_congr_left fun e _ => entrySkel_sanitize e o
  · exact List.map_congr_left fun m _ => wsSkel_sanitize m o
  · exact List.map_congr_left fun ev _ => sseSkel_sanitize ev o

/-! ### Model of the IndexedDB stores (`lib/db.js`)

A store is modelled as the list of its records in the order the
`timestamp` index cursor visits them (ascending timestamp); sortedness is
taken as an explicit hypothesis where a property depends on it.  Each
cursor loop of the source is one recursion over that list. -/

/-- A buffered record as the db layer sees it: its `timestamp` index key and
its `tabId` (the payload is irrelevant to the properties here and the `key`
keeps distinct records distinct). -/
structure DbRecord where
  key : Int
  timestamp : Int
  tabId : Int
deriving DecidableEq, Repr

/-- The guard `!tabIds || tabIds.includes(entry.tabId)` of
`getEntriesByTimeRange`: `!tabIds` is true only for a `null`/absent array
(an empty array is truthy in JavaScript). -/
def jsTabFilter (tabIds : Option (List Int)) (tabId : Int) : Bool :=
  match tabIds with
  | none => true
  | some ids => ids.contains tabId

/-- `getEntriesByTimeRange` from `lib/db.js`: a cursor over
`IDBKeyRange.bound(startTime, endTime)` (inclusive at both ends) pushing
the records that pass the tab guard. -/
def getEntriesByTimeRange (store : List DbRecord) (startTime endTime : Int)
    (tabIds : Option (List Int)) : List DbRecord :=
  match store with
  | [] => []
  | r :: rs =>
    let rest := getEntriesByTimeRange rs startTime endTime tabIds
    if startTime ≤ r.timestamp ∧ r.timestamp ≤ endTime then
      if jsTabFilter tabIds r.tabId then r :: rest else rest
    else rest

/-- `deleteEntriesOlderThan` from `lib/db.js`: a deleting cursor over
`IDBKeyRange.upperBound(timestamp)` (inclusive); returns the surviving
store and the deleted count. -/
def deleteEntriesOlderThan (store : List DbRecord) (timestamp : Int) :
    List DbRecord × Nat :=
  match store with
  | [] => ([], 0)
  | r :: rs =>
    let rest := deleteEntriesOlderThan rs timestamp
    if r.timestamp ≤ timestamp then (rest.1, rest.2 + 1) else (r :: rest.1, rest.2)

/-- The cursor loop of `deleteOldestEntries`: delete while the cursor is
live and `deletedCount < count`. -/
def deleteOldestLoop : List DbRecord → Int → Int → List DbRecord × Int
  | [], _, deleted => ([], deleted)
  | r :: rs, count, deleted =>
    if deleted < count then deleteOldestLoop rs count (deleted + 1)
    else (r :: rs, deleted)

/-- `deleteOldestEntries` from `lib/db.js`: an unbounded ascending cursor
deleting the first `count` records. -/
def deleteOldestEntries (store : List DbRecord) (count : Int) :
    List DbRecord × Int :=
  deleteOldestLoop store count 0

theorem getEntriesByTimeRange_eq_filter (l : List DbRecord) (s e : Int)
    (t : Option (List Int)) :
    getEntriesByTimeRange l s e t
      = l.filter fun r =>
          (decide (s ≤ r.timestamp) && decide (r.timestamp ≤ e)) && jsTabFilter t r.tabId := by
  induction l with
  | nil => rfl
  | cons r rs ih =>
    unfold getEntriesByTimeRange
    rw [List.filter_cons]
    by_cases h1 : s ≤ r.timestamp ∧ r.timestamp ≤ e
    · rw [if_pos h1]
      by_cases h2 : jsTabFilter t r.tabId = true
      · rw [if_pos h2, if_pos (by simp [h1.1, h1.2, h2]), ih]
      · rw [if_neg h2, if_neg (by simp [h2]), ih]
    · rw [if_neg h1]
      rw [if_neg (by
        intro hx
        simp only [Bool.and_eq_true, decide_eq_true_eq] at hx
        exact h1 ⟨hx.1.1, hx.1.2⟩)]
      exact ih

theorem deleteEntriesOlderThan_fst (l : List DbRecord) (t : Int) :
    (deleteEntriesOlderThan l t).1 = l.filter fun r => decide (t < r.timestamp) := by
  induction l with
  | nil => rfl
  | cons r rs ih =>
    unfold deleteEntriesOlderThan
    rw [List.filter_cons]
    by_cases h1 : r.timestamp ≤ t
    · rw [if_pos h1, if_neg (by simp; omega)]
      exact ih
    · rw [if_neg h1, if_pos (by simp; omega)]
      simpa using ih

theorem deleteEntriesOlderThan_snd (l : List DbRecord) (t : Int) :
    (deleteEntriesOlderThan l t).2 = l.countP fun r => decide (r.timestamp ≤ t) := by
  induction l with
  | nil => rfl
  | cons r rs ih =>
    unfold deleteEntriesOlderThan
    rw [List.countP_cons]
    by_cases h1 : r.timestamp ≤ t
    · rw [if_pos h1]
      simp [h1, ih]
    · rw [if_neg h1]
      simp [h1, ih]

theorem deleteOldestLoop_eq (l : List DbRecord) :
    ∀ (count d : Int),
      deleteOldestLoop l count d
        = (l.drop (count - d).toNat, d + min ((count - d).toNat) l.length) := by
  induction l with
  | nil =>
    intro count d
    simp [deleteOldestLoop]
  | cons r rs ih =>
    intro count d
    unfold deleteOldestLoop
    by_cases h : d < count
    · rw [if_pos h, ih count (d + 1)]
      have hk : (count - d).toNat = (count - (d + 1)).toNat + 1 := by omega
      rw [hk]
      simp only [List.drop_succ_cons, List.length_cons, Prod.mk.injEq]
      constructor
      · trivial
      · have hmin2 : ((count - (d + 1)).toNat + 1) ⊓ (rs.length + 1)
            = (count - (d + 1)).toNat ⊓ rs.length + 1 := by omega
        rw [hmin2]
        push_cast
        ring
    · rw [if_neg h]
      have hk : (count - d).toNat = 0 := by omega
      simp [hk]

theorem deleteOldestEntries_eq (l : List DbRecord) (count : Int) :
    deleteOldestEntries l count
      = (l.drop count.toNat, ((min count.toNat l.length : ℕ) : Int)) := by
  unfold deleteOldestEntries
  rw [deleteOldestLoop_eq]
  simp

/-- Ascending-timestamp order, the order of the `timestamp` index. -/
def tsLe (a b : DbRecord) : Prop := a.timestamp ≤ b.timestamp

theorem take_tsLe_drop {l : List DbRecord} (hp : l.Pairwise tsLe) (n : Nat) :
    ∀ a ∈ l.take n, ∀ b ∈ l.drop n, a.timestamp ≤ b.timestamp := by
  have h2 : (l.take n ++ l.drop n).Pairwise tsLe := by
    rw [List.take_append_drop]
    exact hp
  intro a ha b hb
  exact (List.pairwise_append.mp h2).2.2 a ha b hb

/-! ### Model of the Buffer Manager pass (`background/cleanup.js`)

JavaScript number arithmetic (`* 0.9`, `Math.ceil(x / 2000)`) is modelled
exactly over `ℚ`. -/

/-- `TWENTY_FOUR_HOURS` from `utils/format.js`. -/
def TWENTY_FOUR_HOURS : Int := 24 * 60 * 60 * 1000

/-- `STORAGE_CAPS` from `utils/format.js`. -/
def STORAGE_CAPS : List (Str × Int) :=
  [("100MB".data, 100 * 1024 * 1024),
   ("250MB".data, 250 * 1024 * 1024),
   ("500MB".data, 500 * 1024 * 1024),
   ("1GB".data, 1024 * 1024 * 1024),
   ("2GB".data, 2 * 1024 * 1024 * 1024)]

/-- The three stores of the rolling buffer. -/
structure BufferState where
  httpEntries : List DbRecord
  wsFrames : List DbRecord
  sseEvents : List DbRecord
deriving DecidableEq, Repr

/-- `performCleanup` from `background/cleanup.js`: step 1 deletes records
older than 24 h from each store; step 2, when the reported `usage` exceeds
the cap, deletes `Math.ceil(Math.ceil((usage - 0.9*cap) / 2000) / 3)`
oldest records from each store.  Returns the new state and `totalDeleted`. -/
def performCleanup (st : BufferState) (now : Int) (usage storageCap : ℚ) :
    BufferState × Nat :=
  let cutoffTime := now - TWENTY_FOUR_HOURS
  let http1 := deleteEntriesOlderThan st.httpEntries cutoffTime
  let ws1 := deleteEntriesOlderThan st.wsFrames cutoffTime
  let sse1 := deleteEntriesOlderThan st.sseEvents cutoffTime
  let totalDeleted := http1.2 + ws1.2 + sse1.2
  if usage > storageCap then
    let targetUsage := storageCap * (9 / 10)
    let bytesToDelete := usage - targetUsage
    let entriesToDelete : ℤ := ⌈bytesToDelete / 2000⌉
    let perStoreDelete : ℤ := ⌈(entriesToDelete : ℚ) / 3⌉
    ({ httpEntries := (deleteOldestEntries http1.1 perStoreDelete).1,
       wsFrames := (deleteOldestEntries ws1.1 perStoreDelete).1,
       sseEvents := (deleteOldestEntries sse1.1 perStoreDelete).1 }, totalDeleted)
  else
    ({ httpEntries := http1.1, wsFrames := ws1.1, sseEvents := sse1.1 }, totalDeleted)

/-- Dividing a ceiling by three and rounding up again equals a single
rounded-up division: the source's nested `Math.ceil` matches the spec's
`⌈(x/2000)/3⌉`. -/
theorem ceil_div_three (y : ℚ) : ⌈((⌈y⌉ : ℚ)) / 3⌉ = ⌈y / 3⌉ := by
  apply le_antisymm
  · rw [Int.ceil_le, div_le_iff₀ (by norm_num : (0:ℚ) < 3)]
    have h1 : y ≤ (⌈y / 3⌉ : ℚ) * 3 := by
      have h2 := Int.le_ceil (y / 3)
      have h3 : y / 3 * 3 ≤ (⌈y / 3⌉ : ℚ) * 3 :=
        mul_le_mul_of_nonneg_right h2 (by norm_num)
      calc y = y / 3 * 3 := by ring
        _ ≤ _ := h3
    have h4 : (⌈y⌉ : ℤ) ≤ ⌈y / 3⌉ * 3 := by
      rw [Int.ceil_le]
      push_cast
      exact h1
    exact_mod_cast h4
  · apply Int.ceil_mono
    have h5 : y / 3 ≤ (⌈y⌉ : ℚ) / 3 := by
      have := Int.le_ceil y
      gcongr
    exact h5

instance : DecidableRel tsLe := fun a b => by
  unfold tsLe
  infer_instance

/-- C4: `deleteEntriesOlderThan` removes exactly the records with timestamp
at most the cutoff (every record with a strictly greater timestamp survives
unchanged, and the returned count is the number of removed records);
consequently a Buffer Manager pass run more than 24 hours after the last
append leaves every stream empty. -/
theorem C4_delete_older_than_and_expiry
    (store : List DbRecord) (tcut : Int)
    (st : BufferState) (now : Int) (usage cap : ℚ) (lastAppend : Int)
    (hh : ∀ r ∈ st.httpEntries, r.timestamp ≤ lastAppend)
    (hw : ∀ r ∈ st.wsFrames, r.timestamp ≤ lastAppend)
    (hs : ∀ r ∈ st.sseEvents, r.timestamp ≤ lastAppend)
    (hnow : lastAppend < now - TWENTY_FOUR_HOURS) :
    ((deleteEntriesOlderThan store tcut).1
        = store.filter (fun r => decide (tcut < r.timestamp)) ∧
      (deleteEntriesOlderThan store tcut).2
        = store.countP (fun r => decide (r.timestamp ≤ tcut))) ∧
    (performCleanup st now usage cap).1 = ⟨[], [], []⟩ := by
  refine ⟨⟨deleteEntriesOlderThan_fst store tcut, deleteEntriesOlderThan_snd store tcut⟩, ?_⟩
  have hempty : ∀ (l : List DbRecord), (∀ r ∈ l, r.timestamp ≤ lastAppend) →
      (deleteEntriesOlderThan l (now - TWENTY_FOUR_HOURS)).1 = [] := by
    intro l hl
    rw [deleteEntriesOlderThan_fst]
    rw [List.filter_eq_nil_iff]
    intro r hr
    have := hl r hr
    simp only [decide_eq_true_eq]
    omega
  unfold performCleanup
  simp only [hempty st.httpEntries hh, hempty st.wsFrames hw, hempty st.sseEvents hs]
  by_cases hcap : usage > cap
  · rw [if_pos hcap]
    simp [deleteOldestEntries, deleteOldestLoop]
  · rw [if_neg hcap]

/-- C4 witness: one store with one expired record; a buffer whose three
streams each hold one record appended at time 100, cleaned at a time more
than 24 hours later. -/
theorem C4_delete_older_than_and_expiry_witness :
    ((∀ r ∈ [DbRecord.mk 1 5 0], r.timestamp ≤ (100 : Int)) ∧
      (∀ r ∈ ([] : List DbRecord), r.timestamp ≤ (100 : Int)) ∧
      (∀ r ∈ [DbRecord.mk 2 100 7], r.timestamp ≤ (100 : Int)) ∧
      (100 : Int) < 86400200 - TWENTY_FOUR_HOURS) ∧
    (((deleteEntriesOlderThan [DbRecord.mk 1 5 0] 5).1
        = [DbRecord.mk 1 5 0].filter (fun r => decide ((5 : Int) < r.timestamp)) ∧
      (deleteEntriesOlderThan [DbRecord.mk 1 5 0] 5).2
        = [DbRecord.mk 1 5 0].countP (fun r => decide (r.timestamp ≤ (5 : Int)))) ∧
    (performCleanup ⟨[DbRecord.mk 1 5 0], [], [DbRecord.mk 2 100 7]⟩
        86400200 0 1).1 = ⟨[], [], []⟩) :=
  ⟨⟨by decide, by decide, by decide, by decide⟩,
    C4_delete_older_than_and_expiry [DbRecord.mk 1 5 0] 5
      ⟨[DbRecord.mk 1 5 0], [], [DbRecord.mk 2 100 7]⟩ 86400200 0 1 100
      (by decide) (by decide) (by decide) (by decide)⟩

/-- C5: when a Buffer Manager pass sees `usage > cap`, each of the three
streams loses exactly `⌈((usage − 0.9·cap) / 2000) / 3⌉` records (the
source's nested `Math.ceil` equals the spec's single rounded division), and
the records removed from each (index-ordered) stream are its oldest ones:
every removed record's timestamp is at most every survivor's (all records
are removed when fewer than that count exist, by the drop semantics). -/
theorem C5_cap_eviction (st : BufferState) (now : Int) (usage cap : ℚ)
    (hgt : usage > cap)
    (h1 : st.httpEntries.Pairwise tsLe)
    (h2 : st.wsFrames.Pairwise tsLe)
    (h3 : st.sseEvents.Pairwise tsLe) :
    ∃ n : ℤ,
      n = ⌈((usage - cap * (9 / 10)) / 2000) / 3⌉ ∧
      ((performCleanup st now usage cap).1
          = ⟨((deleteEntriesOlderThan st.httpEntries (now - TWENTY_FOUR_HOURS)).1).drop n.toNat,
             ((deleteEntriesOlderThan st.wsFrames (now - TWENTY_FOUR_HOURS)).1).drop n.toNat,
             ((deleteEntriesOlderThan st.sseEvents (now - TWENTY_FOUR_HOURS)).1).drop n.toNat⟩) ∧
      (∀ a ∈ ((deleteEntriesOlderThan st.httpEntries (now - TWENTY_FOUR_HOURS)).1).take n.toNat,
        ∀ b ∈ ((deleteEntriesOlderThan st.httpEntries (now - TWENTY_FOUR_HOURS)).1).drop n.toNat,
          a.timestamp ≤ b.timestamp) ∧
      (∀ a ∈ ((deleteEntriesOlderThan st.wsFrames (now - TWENTY_FOUR_HOURS)).1).take n.toNat,
        ∀ b ∈ ((deleteEntriesOlderThan st.wsFrames (now - TWENTY_FOUR_HOURS)).1).drop n.toNat,
          a.timestamp ≤ b.timestamp) ∧
      (∀ a ∈ ((deleteEntriesOlderThan st.sseEvents (now - TWENTY_FOUR_HOURS)).1).take n.toNat,
        ∀ b ∈ ((deleteEntriesOlderThan st.sseEvents (now - TWENTY_FOUR_HOURS)).1).drop n.toNat,
          a.timestamp ≤ b.timestamp) := by
  refine ⟨⌈((usage - cap * (9 / 10)) / 2000) / 3⌉, rfl, ?_, ?_, ?_, ?_⟩
  · unfold performCleanup
    rw [if_pos hgt]
    have hc : (⌈((⌈(usage - cap * (9 / 10)) / 2000⌉ : ℚ)) / 3⌉ : ℤ)
        = ⌈((usage - cap * (9 / 10)) / 2000) / 3⌉ :=
      ceil_div_three ((usage - cap * (9 / 10)) / 2000)
    simp only [deleteOldestEntries_eq, hc]
  · exact take_tsLe_drop
      (List.Pairwise.sublist (by
        rw [deleteEntriesOlderThan_fst]
        exact List.filter_sublist _) h1) _
  · exact take_tsLe_drop
      (List.Pairwise.sublist (by
        rw [deleteEntriesOlderThan_fst]
        exact List.filter_sublist _) h2) _
  · exact take_tsLe_drop
      (List.Pairwise.sublist (by
        rw [deleteEntriesOlderThan_fst]
        exact List.filter_sublist _) h3) _

/-- C5 witness: the spec's scenario — usage 150 MiB against a 100 MiB cap —
applied to small sorted streams; the common per-stream count is 10486. -/
theorem C5_cap_eviction_witness :
    ((157286400 : ℚ) > 104857600 ∧
      ([DbRecord.mk 1 1 0, DbRecord.mk 2 2 0] : List DbRecord).Pairwise tsLe) ∧
    (∃ n : ℤ,
      n = ⌈(((157286400 : ℚ) - 104857600 * (9 / 10)) / 2000) / 3⌉ ∧
      ((performCleanup ⟨[DbRecord.mk 1 1 0, DbRecord.mk 2 2 0], [], []⟩ 0 157286400 104857600).1
          = ⟨((deleteEntriesOlderThan [DbRecord.mk 1 1 0, DbRecord.mk 2 2 0] (0 - TWENTY_FOUR_HOURS)).1).drop n.toNat,
             ((deleteEntriesOlderThan ([] : List DbRecord) (0 - TWENTY_FOUR_HOURS)).1).drop n.toNat,
             ((deleteEntriesOlderThan ([] : List DbRecord) (0 - TWENTY_FOUR_HOURS)).1).drop n.toNat⟩) ∧
      (∀ a ∈ ((deleteEntriesOlderThan [DbRecord.mk 1 1 0, DbRecord.mk 2 2 0] (0 - TWENTY_FOUR_HOURS)).1).take n.toNat,
        ∀ b ∈ ((deleteEntriesOlderThan [DbRecord.mk 1 1 0, DbRecord.mk 2 2 0] (0 - TWENTY_FOUR_HOURS)).1).drop n.toNat,
          a.timestamp ≤ b.timestamp) ∧
      (∀ a ∈ ((deleteEntriesOlderThan ([] : List DbRecord) (0 - TWENTY_FOUR_HOURS)).1).take n.toNat,
        ∀ b ∈ ((deleteEntriesOlderThan ([] : List DbRecord) (0 - TWENTY_FOUR_HOURS)).1).drop n.toNat,
          a.timestamp ≤ b.timestamp) ∧
      (∀ a ∈ ((deleteEntriesOlderThan ([] : List DbRecord) (0 - TWENTY_FOUR_HOURS)).1).take n.toNat,
        ∀ b ∈ ((deleteEntriesOlderThan ([] : List DbRecord) (0 - TWENTY_FOUR_HOURS)).1).drop n.toNat,
          a.timestamp ≤ b.timestamp)) ∧
    (⌈(((157286400 : ℚ) - 104857600 * (9 / 10)) / 2000) / 3⌉ : ℤ) = 10486 :=
  ⟨⟨by norm_num, by decide⟩,
    C5_cap_eviction ⟨[DbRecord.mk 1 1 0, DbRecord.mk 2 2 0], [], []⟩ 0 157286400 104857600
      (by norm_num) (by decide) (by decide) (by decide),
    by norm_num [Int.ceil_eq_iff]⟩

/-! ### Model of `uploadClip` (`lib/supabase.js`) -/

/-- `LARGE_CLIP_THRESHOLD` from `lib/supabase.js`. -/
def LARGE_CLIP_THRESHOLD : Int := 1024 * 1024

/-- `STORAGE_BUCKET` from `lib/supabase.js`. -/
def STORAGE_BUCKET : Str := "har-clips".data

/-- The `new Date().toISOString().replace(/[:.]/g, '-')` filename stem. -/
def isoToFileChars (iso : Str) : Str :=
  iso.map fun c => if c = ':' ∨ c = '.' then '-' else c

/-- The routing-relevant columns of the inserted `clips` row. -/
structure ClipRecord where
  harData : Option Har
  storagePath : Option Str
  totalSizeBytes : Int
deriving DecidableEq, Repr

/-- `uploadClip` from `lib/supabase.js`: route by serialized size — at or
above the threshold the bytes go to a storage object
`har-clips/clip-<stem>.json` and the row keeps only the path; below it the
document itself is stored in the row.  `iso` is the ISO timestamp `new
Date().toISOString()` of the upload moment. -/
def uploadClip (har : Har) (sizeBytes : Int) (iso : Str) : ClipRecord :=
  let isLargeClip := sizeBytes ≥ LARGE_CLIP_THRESHOLD
  let fileName := "clip-".data ++ isoToFileChars iso ++ ".json".data
  if isLargeClip then
    { harData := none,
      storagePath := some (STORAGE_BUCKET ++ "/".data ++ fileName),
      totalSizeBytes := sizeBytes }
  else
    { harData := some har, storagePath := none, totalSizeBytes := sizeBytes }

/-- An empty HAR document. -/
def emptyHar : Har :=
  { log :=
      { version := "1.2".data, entries := [],
        webSocketMessages := [], serverSentEvents := [] } }

/-- C3 (amended): a clip whose serialization is strictly below 1 MiB is
stored inline (`har_data` non-null, `storage_path` null); at or above
1 MiB the bytes go to a blob at `har-clips/clip-<stem>.json` and the row
carries only the path — the inline side of the threshold is the strict
one, so an exactly-1-MiB clip goes to the blob.  Exactly one of `har_data`
and `storage_path` is non-null. -/
theorem C3_upload_routing (har : Har) (sizeBytes : Int) (iso : Str) :
    (uploadClip har sizeBytes iso
      = if sizeBytes < LARGE_CLIP_THRESHOLD then
          { harData := some har, storagePath := none, totalSizeBytes := sizeBytes }
        else
          { harData := none,
            storagePath := some ("har-clips/clip-".data ++ isoToFileChars iso ++ ".json".data),
            totalSizeBytes := sizeBytes }) ∧
    ((uploadClip har sizeBytes iso).harData.isSome
      ↔ (uploadClip har sizeBytes iso).storagePath.isNone) := by
  unfold uploadClip
  by_cases h : sizeBytes ≥ LARGE_CLIP_THRESHOLD
  · rw [if_pos h, if_neg (by omega)]
    refine ⟨?_, by simp⟩
    simp [STORAGE_BUCKET]
  · rw [if_neg h, if_pos (by omega)]
    exact ⟨rfl, by simp⟩

/-- C3 counterexample: a clip of exactly 1 MiB (1048576 bytes) is NOT
inlined — it is routed to the blob and the row's `har_data` is null,
refuting the claim that the blob side of the threshold is strict. -/
theorem C3_exact_1MiB_counterexample :
    (uploadClip emptyHar 1048576 "2026-01-02T03:04:05.678Z".data).harData = none ∧
    (uploadClip emptyHar 1048576 "2026-01-02T03:04:05.678Z".data).storagePath
      = some ("har-clips/clip-2026-01-02T03-04-05-678Z.json".data) := by
  constructor
  · rfl
  · rfl

/-! ### Model of `createClip` (service worker, `src/unnamed/part_008`)

The destructuring `const { startTime, endTime, tabIds, clipName } = payload`
happens BEFORE the `try` block, so an absent payload throws to the caller;
everything after it is inside the `try` and failures become
`{ success: false, error }` returns.  The snapshot the three store reads
see, the rejection state of those reads, the reported serialized size and
the outcome of `uploadClip` are the environment. -/

/-- The message payload of a clip request. -/
structure ClipPayload where
  startTime : Int
  endTime : Int
  tabIds : Option (List Int)
  clipName : Option Str
deriving DecidableEq, Repr

/-- The row returned by the Supabase insert. -/
structure UploadRow where
  id : Str
  storagePath : Option Str
deriving DecidableEq, Repr

/-- The value `createClip` returns to the message sender. -/
structure ClipResponse where
  success : Bool
  clipId : Option Str
  entryCount : Option Nat
  sizeBytes : Option Int
  storagePath : Option (Option Str)
  error : Option Str
deriving DecidableEq, Repr

/-- The service-worker environment of one `createClip` call. -/
structure ClipEnv where
  store : BufferState
  dbError : Option Str
  sizeBytes : Int
  uploadResult : Except Str UploadRow
deriving Repr

/-- `createClip` from the service worker: destructure the payload (outside
the `try`), read the three stores over the requested range, build,
sanitize, serialize and upload, returning `{success: true, ...}`; any
rejection inside the `try` is caught and returned as
`{success: false, error}`.  `Except.error` is an exception escaping to the
caller. -/
def createClip (payload : Option ClipPayload) (env : ClipEnv) :
    Except Str ClipResponse :=
  match payload with
  | none =>
    Except.error "TypeError: Cannot destructure property startTime of undefined".data
  | some p =>
    match env.dbError with
    | some msg =>
      Except.ok
        { success := false, clipId := none, entryCount := none,
          sizeBytes := none, storagePath := none, error := some msg }
    | none =>
      let httpEntries :=
        getEntriesByTimeRange env.store.httpEntries p.startTime p.endTime p.tabIds
      let wsFrames :=
        getEntriesByTimeRange env.store.wsFrames p.startTime p.endTime p.tabIds
      let sseEvents :=
        getEntriesByTimeRange env.store.sseEvents p.startTime p.endTime p.tabIds
      match env.uploadResult with
      | Except.error msg =>
        Except.ok
          { success := false, clipId := none, entryCount := none,
            sizeBytes := none, storagePath := none, error := some msg }
      | Except.ok row =>
        Except.ok
          { success := true, clipId := some row.id,
            entryCount := some (httpEntries.length + wsFrames.length + sseEvents.length),
            sizeBytes := some env.sizeBytes,
            storagePath := some row.storagePath, error := none }

/-- Modelled from the spec: the claimed count
`Σ_streams |{r : s ≤ r.ts ≤ e ∧ (tabs==∅ ∨ r.tab ∈ tabs)}|`, with an empty
tab set meaning no filter. -/
def specClipEntryCount (st : BufferState) (s e : Int) (tabs : List Int) : Nat :=
  let pred := fun r : DbRecord =>
    (decide (s ≤ r.timestamp) && decide (r.timestamp ≤ e))
      && (tabs.isEmpty || tabs.contains r.tabId)
  st.httpEntries.countP pred + st.wsFrames.countP pred + st.sseEvents.countP pred

/-- Modelled from the amended spec: the same count with the tab filter
applied only when a tab set is given (`none`); a GIVEN empty set matches
nothing. -/
def specClipEntryCountAmended (st : BufferState) (s e : Int)
    (tabs : Option (List Int)) : Nat :=
  let pred := fun r : DbRecord =>
    (decide (s ≤ r.timestamp) && decide (r.timestamp ≤ e))
      && (match tabs with
          | none => true
          | some ids => ids.contains r.tabId)
  st.httpEntries.countP pred + st.wsFrames.countP pred + st.sseEvents.countP pred

theorem jsTabFilter_eq_amended (tabs : Option (List Int)) (tabId : Int) :
    jsTabFilter tabs tabId
      = match tabs with
        | none => true
        | some ids => ids.contains tabId := by
  cases tabs <;> rfl

/-- C1 (amended): for every clip request with `startTime ≤ endTime` whose
store reads and upload succeed, `createClip` returns success (an empty
result set included), and the returned entry count is the across-streams
count of records with `startTime ≤ ts ≤ endTime` that pass the tab filter,
where the filter applies only when a tab id array is GIVEN (a given empty
array matches no record; only an absent array means no filter). -/
theorem C1_createClip_entry_count (p : ClipPayload) (env : ClipEnv) (row : UploadRow)
    (_hse : p.startTime ≤ p.endTime)
    (hdb : env.dbError = none)
    (hup : env.uploadResult = Except.ok row) :
    createClip (some p) env = Except.ok
      { success := true, clipId := some row.id,
        entryCount := some (specClipEntryCountAmended env.store p.startTime p.endTime p.tabIds),
        sizeBytes := some env.sizeBytes,
        storagePath := some row.storagePath, error := none } := by
  unfold createClip
  rw [hdb, hup]
  have hlen : ∀ l : List DbRecord,
      (getEntriesByTimeRange l p.startTime p.endTime p.tabIds).length
        = l.countP fun r =>
            (decide (p.startTime ≤ r.timestamp) && decide (r.timestamp ≤ p.endTime))
              && (match p.tabIds with
                  | none => true
                  | some ids => ids.contains r.tabId) := by
    intro l
    rw [getEntriesByTimeRange_eq_filter, ← List.countP_eq_length_filter]
    simp only [jsTabFilter_eq_amended]
  simp only [hlen]
  rfl

/-- C1 witness: a two-record store, the range `[0, 10]`, no tab filter. -/
theorem C1_createClip_entry_count_witness :
    ((0 : Int) ≤ 10 ∧
      (ClipEnv.mk ⟨[DbRecord.mk 1 5 3], [DbRecord.mk 2 50 3], []⟩ none 7
        (Except.ok ⟨"id1".data, none⟩)).dbError = none ∧
      (ClipEnv.mk ⟨[DbRecord.mk 1 5 3], [DbRecord.mk 2 50 3], []⟩ none 7
        (Except.ok ⟨"id1".data, none⟩)).uploadResult = Except.ok ⟨"id1".data, none⟩) ∧
    createClip (some ⟨0, 10, none, none⟩)
        (ClipEnv.mk ⟨[DbRecord.mk 1 5 3], [DbRecord.mk 2 50 3], []⟩ none 7
          (Except.ok ⟨"id1".data, none⟩))
      = Except.ok
        { success := true, clipId := some "id1".data,
          entryCount := some (specClipEntryCountAmended
            ⟨[DbRecord.mk 1 5 3], [DbRecord.mk 2 50 3], []⟩ 0 10 none),
          sizeBytes := some 7, storagePath := some none, error := none } :=
  ⟨⟨by decide, rfl, rfl⟩,
    C1_createClip_entry_count ⟨0, 10, none, none⟩
      (ClipEnv.mk ⟨[DbRecord.mk 1 5 3], [DbRecord.mk 2 50 3], []⟩ none 7
        (Except.ok ⟨"id1".data, none⟩))
      ⟨"id1".data, none⟩ (by decide) rfl rfl⟩

/-- C1 counterexample: one in-range record and a GIVEN EMPTY tab array.
The spec reads `tabs==∅` as "no filter, every record counts" (count 1),
but the code's guard `!tabIds || tabIds.includes(...)` treats the empty
array as a filter that nothing passes, so the clip reports 0 entries. -/
theorem C1_empty_tab_set_counterexample :
    createClip (some ⟨0, 10, some [], none⟩)
        (ClipEnv.mk ⟨[DbRecord.mk 1 5 3], [], []⟩ none 7
          (Except.ok ⟨"id1".data, none⟩))
      = Except.ok
        { success := true, clipId := some "id1".data, entryCount := some 0,
          sizeBytes := some 7, storagePath := some none, error := none } ∧
    specClipEntryCount ⟨[DbRecord.mk 1 5 3], [], []⟩ 0 10 [] = 1 := by
  constructor
  · rfl
  · rfl

/-! ### Model of the capture pipeline (`src/unnamed/part_008`)

The two in-memory `Map`s are modelled as insertion-ordered association
lists with JavaScript `Map` get/set/delete semantics; the `http_entries`
store is the `stored` append log.  `Date.now()` values are passed in as
`now`.  Fields of the stored entry that no claim mentions (`hostname`,
`startedDateTime`, the header/query conversions) are omitted from the
stored-entry slice. -/

/-- `MAX_RESPONSE_BODY_SIZE` from `utils/format.js`. -/
def MAX_RESPONSE_BODY_SIZE : Int := 5 * 1024 * 1024

/-- JavaScript `x || y` on a possibly-absent number (`0` is falsy). -/
def jsNumOr (x : Option Int) (y : Int) : Int :=
  match x with
  | some v => if v = 0 then y else v
  | none => y

/-- JavaScript `x || y` on a possibly-absent string (`''` is falsy). -/
def jsStrOr (x : Option Str) (y : Str) : Str :=
  match x with
  | some s => if s.isEmpty then y else s
  | none => y

/-- The slice of a CDP `Network.Response` the handlers read. -/
structure CdpResponse where
  url : Str
  status : Int
  mimeType : Option Str
  encodedDataLength : Option Int
deriving DecidableEq, Repr

/-- The `{body, base64Encoded, size}` object `handleLoadingFinished` passes
to `saveHttpEntry`. -/
structure BodyResult where
  body : Option Str
  base64Encoded : Bool
  size : Int
deriving DecidableEq, Repr

/-- One value of the `pendingRequests` map. -/
structure PendingReq where
  tabId : Int
  requestId : Str
  timestamp : Int
  url : Str
  method : Str
  postData : Option Str
  rtype : Option Str
  response : Option CdpResponse
  startTime : Int
deriving DecidableEq, Repr

/-- One value of the `wsConnections` map. -/
structure WsConn where
  tabId : Int
  url : Str
  connectionId : Str
  createdAt : Int
deriving DecidableEq, Repr

/-- The slice of the object `saveHttpEntry` stores that the claims speak
about. -/
structure StoredHttpEntry where
  timestamp : Int
  tabId : Int
  method : Str
  url : Str
  status : Int
  contentSize : Int
  contentMime : Str
  contentText : Option Str
  contentEncoding : Option Str
  redirectURL : Option Str
  responseBodySize : Int
  time : Int
  resourceType : Str
deriving DecidableEq, Repr

/-- `Map.prototype.get`. -/
def mapGet {α : Type} (m : List (Str × α)) (k : Str) : Option α :=
  (m.find? fun kv => kv.1 = k).map fun kv => kv.2

/-- `Map.prototype.set`: replace in place, else append. -/
def mapSet {α : Type} (m : List (Str × α)) (k : Str) (v : α) : List (Str × α) :=
  if m.any fun kv => kv.1 = k then
    m.map fun kv => if kv.1 = k then (k, v) else kv
  else m ++ [(k, v)]

/-- `Map.prototype.delete`. -/
def mapDelete {α : Type} (m : List (Str × α)) (k : Str) : List (Str × α) :=
  m.filter fun kv => !(kv.1 = k)

/-- The in-memory capture state plus the `http_entries` append log. -/
structure CaptureState where
  pendingRequests : List (Str × PendingReq)
  wsConnections : List (Str × WsConn)
  stored : List StoredHttpEntry
deriving DecidableEq, Repr

/-- `saveHttpEntry` (stored-slice): note `response?.status || 0` is the
identity on a present numeric status, `body?.size || response?.encodedDataLength || 0`
falls through on `0`, `body?.body || undefined` drops an empty string, and
`redirectURL` is `response?.url` (undefined when the response is absent)
exactly when it differs from the request URL. -/
def saveHttpEntry (tabId : Int) (pending : PendingReq) (response : Option CdpResponse)
    (body : Option BodyResult) (now : Int) : StoredHttpEntry :=
  { timestamp := if pending.timestamp = 0 then now else pending.timestamp,
    tabId := tabId,
    method := pending.method,
    url := pending.url,
    status :=
      match response with
      | some r => r.status
      | none => 0,
    contentSize :=
      jsNumOr (body.map fun b => b.size)
        (jsNumOr (response.bind fun r => r.encodedDataLength) 0),
    contentMime := jsStrOr (response.bind fun r => r.mimeType)
      "application/octet-stream".data,
    contentText :=
      match body with
      | some b =>
        match b.body with
        | some s => if s.isEmpty then none else some s
        | none => none
      | none => none,
    contentEncoding :=
      match body with
      | some b => if b.base64Encoded then some "base64".data else none
      | none => none,
    redirectURL :=
      match response with
      | some r => if r.url = pending.url then some [] else some r.url
      | none => none,
    responseBodySize := jsNumOr (body.map fun b => b.size) (-1),
    time := now - pending.startTime,
    resourceType := jsStrOr pending.rtype "Other".data }

/-- The `params` of a `Network.requestWillBeSent` event. -/
structure CdpRequestEvt where
  requestId : Str
  url : Str
  method : Str
  postData : Option Str
  timestamp : Int
  rtype : Option Str
  redirectResponse : Option CdpResponse
deriving DecidableEq, Repr

/-- The pending entry `handleRequestWillBeSent` installs (`timestamp * 1000`
converts the tap's seconds to milliseconds). -/
def newPendingOf (tabId : Int) (p : CdpRequestEvt) (now : Int) : PendingReq :=
  { tabId := tabId, requestId := p.requestId, timestamp := p.timestamp * 1000,
    url := p.url, method := p.method, postData := p.postData,
    rtype := p.rtype, response := none, startTime := now }

/-- `handleRequestWillBeSent`: on a redirect, emit the prior leg first, then
overwrite the pending entry for the new leg. -/
def handleRequestWillBeSent (st : CaptureState) (tabId : Int) (p : CdpRequestEvt)
    (now : Int) : CaptureState :=
  let st1 :=
    match p.redirectResponse with
    | some rr =>
      match mapGet st.pendingRequests p.requestId with
      | some pending =>
        { st with stored := st.stored ++ [saveHttpEntry tabId pending (some rr) none now] }
      | none => st
    | none => st
  { st1 with
      pendingRequests := mapSet st1.pendingRequests p.requestId (newPendingOf tabId p now) }

/-- `handleResponseReceived`: record the response on the pending entry. -/
def handleResponseReceived (st : CaptureState) (requestId : Str)
    (response : CdpResponse) : CaptureState :=
  match mapGet st.pendingRequests requestId with
  | some pending =>
    let updated := { pending with response := some response }
    { st with pendingRequests := mapSet st.pendingRequests requestId updated }
  | none => st

/-- `handleLoadingFinished`: request the body from the tap only when
`encodedDataLength <= MAX_RESPONSE_BODY_SIZE` (a throwing
`Network.getResponseBody`, `tap = none`, leaves the body `null`), save the
entry, drop the pending entry.  The second component records whether a
body retrieval was issued. -/
def handleLoadingFinished (st : CaptureState) (tabId : Int) (requestId : Str)
    (encodedDataLength : Int) (tap : Option BodyResult) (now : Int) :
    CaptureState × Bool :=
  match mapGet st.pendingRequests requestId with
  | none => ({ st with pendingRequests := mapDelete st.pendingRequests requestId }, false)
  | some pending =>
    match pending.response with
    | none => ({ st with pendingRequests := mapDelete st.pendingRequests requestId }, false)
    | some resp =>
      let requested := decide (encodedDataLength ≤ MAX_RESPONSE_BODY_SIZE)
      let reply :=
        if requested then
          match tap with
          | some r => (r.body, r.base64Encoded)
          | none => (none, false)
        else (none, false)
      let bodyArg : BodyResult :=
        { body := reply.1, base64Encoded := reply.2, size := encodedDataLength }
      let entry := saveHttpEntry tabId pending (some resp) (some bodyArg) now
      ({ st with
          stored := st.stored ++ [entry],
          pendingRequests := mapDelete st.pendingRequests requestId }, requested)

/-- `handleWebSocketCreated` (the `hostname` field is omitted from the
modelled map value). -/
def handleWebSocketCreated (st : CaptureState) (tabId : Int) (requestId : Str)
    (url : Str) (now : Int) : CaptureState :=
  let conn : WsConn :=
    { tabId := tabId, url := url, connectionId := requestId, createdAt := now }
  { st with wsConnections := mapSet st.wsConnections requestId conn }

/-- `handleWebSocketClosed`. -/
def handleWebSocketClosed (st : CaptureState) (requestId : Str) : CaptureState :=
  { st with wsConnections := mapDelete st.wsConnections requestId }

/-- The `for (const [requestId, pending] of pendingRequests)` deletion loop
of the `tabs.onRemoved` listener. -/
def tabRemovedLoop : List (Str × PendingReq) → Int → List (Str × PendingReq)
  | [], _ => []
  | kv :: rest, t =>
    if kv.2.tabId = t then tabRemovedLoop rest t else kv :: tabRemovedLoop rest t

/-- The `tabs.onRemoved` listener of `initCapture`: it walks
`pendingRequests` only. -/
def handleTabRemoved (st : CaptureState) (tabId : Int) : CaptureState :=
  { st with pendingRequests := tabRemovedLoop st.pendingRequests tabId }

/-- `pauseCapture` as it acts on the capture state: it sets the paused
flag, detaches the debugger from all tabs and updates badge and icon —
none of which touches `pendingRequests`, `wsConnections` or the stores. -/
def pauseCapture (st : CaptureState) : CaptureState := st

theorem find?_map_set {α : Type} (m : List (Str × α)) (k : Str) (v : α)
    (h : (m.any fun kv => kv.1 = k) = true) :
    ((m.map fun kv => if kv.1 = k then (k, v) else kv).find? fun kv => kv.1 = k)
      = some (k, v) := by
  induction m with
  | nil => simp at h
  | cons a rest ih =>
    rw [List.map_cons]
    by_cases hk : a.1 = k
    · rw [if_pos hk]
      rw [List.find?_cons_of_pos _ (by simp)]
    · rw [if_neg hk]
      rw [List.find?_cons_of_neg _ (by simp [hk])]
      apply ih
      simp only [List.any_cons, Bool.or_eq_true, decide_eq_true_eq] at h
      rcases h with h | h
      · exact absurd h hk
      · exact h

theorem find?_append_fresh {α : Type} (m : List (Str × α)) (k : Str) (v : α)
    (h : (m.any fun kv => kv.1 = k) = false) :
    ((m ++ [(k, v)]).find? fun kv => kv.1 = k) = some (k, v) := by
  induction m with
  | nil =>
    rw [List.nil_append]
    rw [List.find?_cons_of_pos _ (by simp)]
  | cons a rest ih =>
    simp only [List.any_cons, Bool.or_eq_false_iff, decide_eq_false_iff_not] at h
    rw [List.cons_append]
    rw [List.find?_cons_of_neg _ (by simp [h.1])]
    apply ih
    simp [h.2]

theorem mapGet_mapSet_self {α : Type} (m : List (Str × α)) (k : Str) (v : α) :
    mapGet (mapSet m k v) k = some v := by
  unfold mapSet
  by_cases h : (m.any fun kv => kv.1 = k) = true
  · rw [if_pos h]
    unfold mapGet
    rw [find?_map_set m k v h]
    rfl
  · rw [if_neg h]
    unfold mapGet
    rw [find?_append_fresh m k v (Bool.eq_false_iff.mpr h)]
    rfl

theorem tabRemovedLoop_eq_filter (m : List (Str × PendingReq)) (t : Int) :
    tabRemovedLoop m t = m.filter fun kv => !decide (kv.2.tabId = t) := by
  induction m with
  | nil => rfl
  | cons kv rest ih =>
    unfold tabRemovedLoop
    rw [List.filter_cons]
    by_cases h : kv.2.tabId = t
    · rw [if_pos h, if_neg (by simp [h])]
      exact ih
    · rw [if_neg h, if_pos (by simp [h])]
      rw [ih]

/-- C8 (amended): closing a tab removes exactly that tab's entries from the
pending-HTTP map — without emitting any record and without touching the
open-WS map (whose entries are only removed by `webSocketClosed`) — and
pausing detaches the debugger but empties neither map. -/
theorem C8_map_teardown (st : CaptureState) (tabId : Int) :
    (handleTabRemoved st tabId).pendingRequests
        = st.pendingRequests.filter (fun kv => !decide (kv.2.tabId = tabId)) ∧
    (handleTabRemoved st tabId).wsConnections = st.wsConnections ∧
    (handleTabRemoved st tabId).stored = st.stored ∧
    pauseCapture st = st :=
  ⟨tabRemovedLoop_eq_filter st.pendingRequests tabId, rfl, rfl, rfl⟩

/-- A capture state with a pending HTTP request and an open WS connection,
both belonging to tab 5. -/
def cexC8St : CaptureState :=
  { pendingRequests :=
      [("r1".data, PendingReq.mk 5 "r1".data 1000 [] [] none none none 0)],
    wsConnections := [("w1".data, WsConn.mk 5 [] "w1".data 0)],
    stored := [] }

/-- C8 counterexample: closing tab 5 leaves the tab's WS-map entry in place
(the `tabs.onRemoved` listener loops over `pendingRequests` only), and
pausing empties neither map (`pauseCapture` only detaches the debugger) —
refuting the claimed teardown of both maps. -/
theorem C8_teardown_counterexample :
    (handleTabRemoved cexC8St 5).wsConnections ≠ [] ∧
    (pauseCapture cexC8St).pendingRequests ≠ [] := by
  decide

/-- C6: on `loadingFinished` for a pending transaction with a recorded
response, the body is requested from the tap iff
`encodedDataLength ≤ 5 MiB` (so it IS requested at exactly 5 MiB); when it
is requested and the tap reports a non-empty body, the stored entry
carries that text with a `base64` encoding tag exactly when the tap says
so; strictly above 5 MiB the entry is stored with the body omitted (no
text, no encoding tag) and its content size is the reported encoded
length. -/
theorem C6_body_size_ceiling (st : CaptureState) (tabId : Int) (requestId : Str)
    (pending : PendingReq) (resp : CdpResponse) (encLen : Int)
    (tap : Option BodyResult) (now : Int)
    (hp : mapGet st.pendingRequests requestId = some pending)
    (hr : pending.response = some resp) :
    ((handleLoadingFinished st tabId requestId encLen tap now).2 = true
        ↔ encLen ≤ MAX_RESPONSE_BODY_SIZE) ∧
    (∀ reply : BodyResult, encLen ≤ MAX_RESPONSE_BODY_SIZE → tap = some reply →
      ∀ s : Str, reply.body = some s → s ≠ [] →
        ∃ e, (handleLoadingFinished st tabId requestId encLen tap now).1.stored
            = st.stored ++ [e] ∧
          e.contentText = some s ∧
          e.contentEncoding = (if reply.base64Encoded then some "base64".data else none)) ∧
    (MAX_RESPONSE_BODY_SIZE < encLen →
      ∃ e, (handleLoadingFinished st tabId requestId encLen tap now).1.stored
          = st.stored ++ [e] ∧
        e.contentText = none ∧ e.contentEncoding = none ∧ e.contentSize = encLen) := by
  unfold handleLoadingFinished
  simp only [hp, hr]
  refine ⟨?_, ?_, ?_⟩
  · simp
  · intro reply hle htap s hbody hs
    subst htap
    refine ⟨_, rfl, ?_, ?_⟩
    · simp only [saveHttpEntry, hle, decide_eq_true_eq, if_pos hle, hbody]
      simp [List.isEmpty_iff, hs]
    · simp only [saveHttpEntry, if_pos hle]
      simp [hle]
  · intro hgt
    have hle : ¬ encLen ≤ MAX_RESPONSE_BODY_SIZE := by omega
    refine ⟨_, rfl, ?_, ?_, ?_⟩
    · simp [saveHttpEntry, hle]
    · simp [saveHttpEntry, hle]
    · simp only [saveHttpEntry, hle]
      unfold jsNumOr
      simp only [Option.map_some', decide_eq_true_eq]
      rw [if_neg (by unfold MAX_RESPONSE_BODY_SIZE at hgt; omega : ¬ encLen = 0)]

/-- A response for the C6 witness scenario. -/
def cexC6Resp : CdpResponse := CdpResponse.mk [] 200 none none

/-- A pending transaction (with response) for the C6 witness scenario. -/
def cexC6Pending : PendingReq :=
  PendingReq.mk 1 "r".data 1000 [] "GET".data none none (some cexC6Resp) 0

/-- A capture state holding the C6 witness transaction. -/
def cexC6St : CaptureState :=
  CaptureState.mk [("r".data, cexC6Pending)] [] []

/-- The tap's body reply for the C6 witness scenario. -/
def cexC6Tap : BodyResult := BodyResult.mk (some "x".data) true 5242880

/-- C6 witness: a transaction finishing at exactly 5 MiB (5242880 bytes)
with a base64 tap reply. -/
theorem C6_body_size_ceiling_witness :
    (mapGet cexC6St.pendingRequests "r".data = some cexC6Pending ∧
      cexC6Pending.response = some cexC6Resp) ∧
    (((handleLoadingFinished cexC6St 1 "r".data 5242880 (some cexC6Tap) 0).2 = true
        ↔ (5242880 : Int) ≤ MAX_RESPONSE_BODY_SIZE) ∧
    (∀ reply : BodyResult, (5242880 : Int) ≤ MAX_RESPONSE_BODY_SIZE →
        some cexC6Tap = some reply →
      ∀ s : Str, reply.body = some s → s ≠ [] →
        ∃ e, (handleLoadingFinished cexC6St 1 "r".data 5242880 (some cexC6Tap) 0).1.stored
            = cexC6St.stored ++ [e] ∧
          e.contentText = some s ∧
          e.contentEncoding = (if reply.base64Encoded then some "base64".data else none)) ∧
    (MAX_RESPONSE_BODY_SIZE < (5242880 : Int) →
      ∃ e, (handleLoadingFinished cexC6St 1 "r".data 5242880 (some cexC6Tap) 0).1.stored
          = cexC6St.stored ++ [e] ∧
        e.contentText = none ∧ e.contentEncoding = none ∧ e.contentSize = 5242880)) :=
  ⟨⟨rfl, rfl⟩,
    C6_body_size_ceiling cexC6St 1 "r".data cexC6Pending cexC6Resp 5242880
      (some cexC6Tap) 0 rfl rfl⟩

theorem rwbs_fresh (st : CaptureState) (tabId : Int) (p : CdpRequestEvt) (now : Int)
    (hn : p.redirectResponse = none) :
    (handleRequestWillBeSent st tabId p now).stored = st.stored ∧
    (handleRequestWillBeSent st tabId p now).wsConnections = st.wsConnections ∧
    mapGet (handleRequestWillBeSent st tabId p now).pendingRequests p.requestId
      = some (newPendingOf tabId p now) := by
  unfold handleRequestWillBeSent
  simp only [hn]
  exact ⟨trivial, trivial, mapGet_mapSet_self _ _ _⟩

theorem rwbs_redirect (st : CaptureState) (tabId : Int) (p : CdpRequestEvt) (now : Int)
    (rr : CdpResponse) (pending : PendingReq)
    (hrr : p.redirectResponse = some rr)
    (hp : mapGet st.pendingRequests p.requestId = some pending) :
    (handleRequestWillBeSent st tabId p now).stored
        = st.stored ++ [saveHttpEntry tabId pending (some rr) none now] ∧
    (handleRequestWillBeSent st tabId p now).wsConnections = st.wsConnections ∧
    mapGet (handleRequestWillBeSent st tabId p now).pendingRequests p.requestId
      = some (newPendingOf tabId p now) := by
  unfold handleRequestWillBeSent
  simp only [hrr, hp]
  exact ⟨trivial, trivial, mapGet_mapSet_self _ _ _⟩

theorem hrr_pending (st : CaptureState) (requestId : Str) (resp : CdpResponse)
    (pending : PendingReq)
    (hp : mapGet st.pendingRequests requestId = some pending) :
    (handleResponseReceived st requestId resp).stored = st.stored ∧
    mapGet (handleResponseReceived st requestId resp).pendingRequests requestId
      = some { pending with response := some resp } := by
  unfold handleResponseReceived
  simp only [hp]
  exact ⟨trivial, mapGet_mapSet_self _ _ _⟩

theorem hlf_emits (st : CaptureState) (tabId : Int) (requestId : Str)
    (pending : PendingReq) (resp : CdpResponse) (encLen : Int)
    (tap : Option BodyResult) (now : Int)
    (hp : mapGet st.pendingRequests requestId = some pending)
    (hr : pending.response = some resp) :
    ∃ b : BodyResult,
      (handleLoadingFinished st tabId requestId encLen tap now).1.stored
        = st.stored ++ [saveHttpEntry tabId pending (some resp) (some b) now] ∧
      b.size = encLen := by
  unfold handleLoadingFinished
  simp only [hp, hr]
  exact ⟨_, rfl, rfl⟩

/-- The request events of a capture session folded over the state. -/
def runRequests (st : CaptureState) (tabId : Int) (evts : List CdpRequestEvt)
    (now : Int) : CaptureState :=
  evts.foldl (fun s e => handleRequestWillBeSent s tabId e now) st

theorem runRequests_redirects (tabId now : Int) (rid : Str) :
    ∀ (evts : List CdpRequestEvt) (st : CaptureState),
      (∀ e ∈ evts, e.requestId = rid ∧ e.redirectResponse.isSome) →
      (mapGet st.pendingRequests rid).isSome →
      (runRequests st tabId evts now).stored.length
          = st.stored.length + evts.length ∧
        (mapGet (runRequests st tabId evts now).pendingRequests rid).isSome := by
  intro evts
  induction evts with
  | nil =>
    intro st _ hpend
    exact ⟨by simp [runRequests], hpend⟩
  | cons e rest ih =>
    intro st hok hpend
    obtain ⟨hid, hsome⟩ := hok e (by simp)
    obtain ⟨rr, hrr⟩ := Option.isSome_iff_exists.mp hsome
    obtain ⟨pending, hp⟩ := Option.isSome_iff_exists.mp hpend
    subst hid
    have hstep := rwbs_redirect st tabId e now rr pending hrr hp
    have hrun : runRequests st tabId (e :: rest) now
        = runRequests (handleRequestWillBeSent st tabId e now) tabId rest now := rfl
    rw [hrun]
    have hrest := ih (handleRequestWillBeSent st tabId e now)
      (fun x hx => hok x (by simp [hx]))
      (by rw [hstep.2.2]; rfl)
    refine ⟨?_, hrest.2⟩
    rw [hrest.1, hstep.1]
    simp
    omega

/-- C7: a `requestWillBeSent` carrying a `redirectResponse` for a pending
request-id emits the prior leg at once and overwrites the pending entry,
so a chain of `1 + k` request events for one id (the first fresh, the rest
redirect-carrying) followed by `responseReceived` and `loadingFinished`
stores exactly `1 + k` HTTP entries; in the two-event scenario the two
stored entries carry the (millisecond-converted) timestamps of their
respective request events, and the first carries the redirect status and
the redirect response's URL as a set, non-empty redirect-url. -/
theorem C7_redirect_chain :
    (∀ (st : CaptureState) (tabId now now2 : Int) (rid : Str) (e0 : CdpRequestEvt)
        (evts : List CdpRequestEvt) (resp : CdpResponse) (encLen : Int)
        (tap : Option BodyResult),
      e0.requestId = rid → e0.redirectResponse = none →
      (∀ e ∈ evts, e.requestId = rid ∧ e.redirectResponse.isSome) →
      (handleLoadingFinished
          (handleResponseReceived
            (runRequests (handleRequestWillBeSent st tabId e0 now) tabId evts now)
            rid resp)
          tabId rid encLen tap now2).1.stored.length
        = st.stored.length + (1 + evts.length)) ∧
    (∀ (st : CaptureState) (tabId now1 now2 now3 : Int) (rid : Str)
        (e1 e2 : CdpRequestEvt) (rr resp : CdpResponse) (encLen : Int)
        (tap : Option BodyResult),
      e1.requestId = rid → e2.requestId = rid →
      e1.redirectResponse = none → e2.redirectResponse = some rr →
      e1.timestamp ≠ 0 → e2.timestamp ≠ 0 → rr.url ≠ e1.url → rr.url ≠ [] →
      ∃ E1 E2,
        (handleLoadingFinished
            (handleResponseReceived
              (handleRequestWillBeSent (handleRequestWillBeSent st tabId e1 now1)
                tabId e2 now2) rid resp)
            tabId rid encLen tap now3).1.stored
          = st.stored ++ [E1, E2] ∧
        E1.timestamp = e1.timestamp * 1000 ∧ E1.status = rr.status ∧
        E1.redirectURL = some rr.url ∧ E1.redirectURL ≠ some [] ∧
        E2.timestamp = e2.timestamp * 1000 ∧ E2.status = resp.status) := by
  constructor
  · intro st tabId now now2 rid e0 evts resp encLen tap h1 h2 h3
    subst h1
    obtain ⟨hs1, hw1, hm1⟩ := rwbs_fresh st tabId e0 now h2
    obtain ⟨hlen, hsome⟩ := runRequests_redirects tabId now e0.requestId evts
      (handleRequestWillBeSent st tabId e0 now) h3 (by rw [hm1]; rfl)
    obtain ⟨p2, hp2⟩ := Option.isSome_iff_exists.mp hsome
    obtain ⟨hs3, hm3⟩ := hrr_pending _ e0.requestId resp p2 hp2
    obtain ⟨b, hs4, hb⟩ := hlf_emits _ tabId e0.requestId _ resp encLen tap now2 hm3 rfl
    rw [hs4]
    simp only [List.length_append, List.length_cons, List.length_nil]
    rw [hs3, hlen, hs1]
    omega
  · intro st tabId now1 now2 now3 rid e1 e2 rr resp encLen tap
      h1 h2 h3 h4 ht1 ht2 hu hune
    subst h1
    obtain ⟨hs1, hw1, hm1⟩ := rwbs_fresh st tabId e1 now1 h3
    obtain ⟨hs2, hw2, hm2⟩ := rwbs_redirect (handleRequestWillBeSent st tabId e1 now1)
      tabId e2 now2 rr (newPendingOf tabId e1 now1) h4 (by rw [h2]; exact hm1)
    obtain ⟨hs3, hm3⟩ := hrr_pending _ e1.requestId resp (newPendingOf tabId e2 now2)
      (by rw [← h2]; exact hm2)
    obtain ⟨b, hs4, hb⟩ := hlf_emits _ tabId e1.requestId _ resp encLen tap now3 hm3 rfl
    refine ⟨saveHttpEntry tabId (newPendingOf tabId e1 now1) (some rr) none now2,
      saveHttpEntry tabId
        { newPendingOf tabId e2 now2 with response := some resp } (some resp) (some b) now3,
      ?_, ?_, ?_, ?_, ?_, ?_, ?_⟩
    · rw [hs4, hs3, hs2, hs1]
      simp
    · simp [saveHttpEntry, newPendingOf, mul_eq_zero, ht1]
    · simp [saveHttpEntry]
    · simp only [saveHttpEntry, newPendingOf]
      rw [if_neg hu]
    · simp only [saveHttpEntry, newPendingOf]
      rw [if_neg hu]
      simp [hune]
    · simp [saveHttpEntry, newPendingOf, mul_eq_zero, ht2]
    · simp [saveHttpEntry]

/-- First request event of the C7 witness scenario (ts = 1 s). -/
def witC7E1 : CdpRequestEvt :=
  CdpRequestEvt.mk "q".data "http://a/".data "GET".data none 1 none none

/-- The 301 redirect response towards `/new`. -/
def witC7Rr : CdpResponse := CdpResponse.mk "/new".data 301 none none

/-- Second request event of the C7 witness scenario (ts = 2 s), carrying the
redirect response. -/
def witC7E2 : CdpRequestEvt :=
  CdpRequestEvt.mk "q".data "/new".data "GET".data none 2 none (some witC7Rr)

/-- The final response of the C7 witness scenario. -/
def witC7Resp : CdpResponse := CdpResponse.mk "/new".data 200 none none

/-- C7 witness: the spec's two-event redirect scenario — events at 1 s and
2 s, a 301 towards `/new` — run from the empty capture state. -/
theorem C7_redirect_chain_witness :
    (witC7E1.requestId = "q".data ∧ witC7E2.requestId = "q".data ∧
      witC7E1.redirectResponse = none ∧ witC7E2.redirectResponse = some witC7Rr ∧
      witC7E1.timestamp ≠ 0 ∧ witC7E2.timestamp ≠ 0 ∧
      witC7Rr.url ≠ witC7E1.url ∧ witC7Rr.url ≠ []) ∧
    (∃ E1 E2,
      (handleLoadingFinished
          (handleResponseReceived
            (handleRequestWillBeSent
              (handleRequestWillBeSent (CaptureState.mk [] [] []) 1 witC7E1 10)
              1 witC7E2 20) "q".data witC7Resp)
          1 "q".data 100 none 30).1.stored
        = (CaptureState.mk [] [] []).stored ++ [E1, E2] ∧
      E1.timestamp = witC7E1.timestamp * 1000 ∧ E1.status = witC7Rr.status ∧
      E1.redirectURL = some witC7Rr.url ∧ E1.redirectURL ≠ some [] ∧
      E2.timestamp = witC7E2.timestamp * 1000 ∧ E2.status = witC7Resp.status) :=
  ⟨⟨rfl, rfl, rfl, rfl, by decide, by decide, by decide, by decide⟩,
    C7_redirect_chain.2 (CaptureState.mk [] [] []) 1 10 20 30 "q".data
      witC7E1 witC7E2 witC7Rr witC7Resp 100 none
      rfl rfl rfl rfl (by decide) (by decide) (by decide) (by decide)⟩

/-- C9 (amended): for every PRESENT payload no exception escapes
`createClip`: every failure inside the `try` (store reads, upload) is
returned as `{success: false, error}`, and success returns
`{success: true}` with `clipId`, `entryCount` and `sizeBytes` set and no
error — the `success` flag discriminates the two shapes.  (The payload
destructuring itself sits OUTSIDE the `try`; see the counterexample.) -/
theorem C9_createClip_catches (p : ClipPayload) (env : ClipEnv) :
    ∃ r, createClip (some p) env = Except.ok r ∧
      (r.success = true ∧ r.clipId.isSome ∧ r.entryCount.isSome ∧ r.sizeBytes.isSome ∧
          r.error = none ∨
        r.success = false ∧ r.error.isSome) := by
  unfold createClip
  cases hdb : env.dbError with
  | some msg => exact ⟨_, rfl, Or.inr ⟨rfl, rfl⟩⟩
  | none =>
    cases hup : env.uploadResult with
    | error msg => exact ⟨_, rfl, Or.inr ⟨rfl, rfl⟩⟩
    | ok row => exact ⟨_, rfl, Or.inl ⟨rfl, rfl, rfl, rfl, rfl⟩⟩

/-- C9 counterexample: an absent payload (`createClip(undefined)`, as a
malformed message produces) throws in the destructuring BEFORE the `try`,
so the exception escapes to the caller instead of becoming a
`{success: false}` return. -/
theorem C9_absent_payload_counterexample :
    createClip none (ClipEnv.mk ⟨[], [], []⟩ none 0 (Except.ok ⟨[], none⟩))
      = Except.error "TypeError: Cannot destructure property startTime of undefined".data :=
  rfl
